import Mathlib

/-!
# oci-hooks-chown: annotation parsing (`chown.go`)

A shallow embedding of `parseOwner` and `parseChownRequests` from `chown.go`,
followed by theorems about them.

Modelling conventions.

* Go strings are modelled by Lean `String`s read as character sequences. The
  separators `':'` and `'.'` and the namespace constant are ASCII, so splitting and
  slicing by character agrees with Go's byte-wise behaviour on valid UTF-8.
* Go `int` is modelled by `Int`; the only place where the machine width matters is
  the range check of `strconv.Atoi`, which uses `intSize`.
* A Go `error` value is an `Option GoError` (`none` is `nil`).
* A Go map is an association list with at most one entry per key (`GoMap`).
  `range` over a map yields its entries in an unspecified order: the input of
  `parseChownRequests` is the sequence in which the first loop receives the
  annotations, and a `RangeOrder` chooses the sequence of the second loop.
* A run-time panic (index out of range) is an `Except.error`.
* `log.Warnf` only emits diagnostics and does not touch the data flow; it is left out.
-/

namespace OciHooksChown

/-! ## Go library functions used by `chown.go` -/

/-- Go errors that can reach the caller of `parseOwner`. -/
inductive GoError where
  /-- The `fmt.Errorf` of `parseOwner`, with the reported segment count. -/
  | segmentCount (n : Nat)
  /-- Value of `strconv.ErrSyntax`. -/
  | errSyntax
  /-- Value of `strconv.ErrRange`. -/
  | errRange
  deriving DecidableEq, Repr

/-- Run-time panics of the Go program. -/
inductive Fault where
  /-- Index expression `a[idx]` evaluated on a slice of length `len`. -/
  | indexOutOfRange (idx len : Nat)
  deriving DecidableEq, Repr

/-- Segments of a character sequence between occurrences of `sep`
(`strings.Split` with a one-character separator): never the empty list. -/
def splitChars (sep : Char) : List Char → List (List Char)
  | [] => [[]]
  | c :: cs =>
    if c = sep then [] :: splitChars sep cs
    else
      match splitChars sep cs with
      | [] => [[c]]
      | seg :: segs => (c :: seg) :: segs

/-- Go `strings.Split(s, sep)` for a separator of one character. -/
def strings.Split (s : String) (sep : Char) : List String :=
  (splitChars sep s.data).map String.mk

/-- Go `strings.HasPrefix(s, pre)`. -/
def strings.HasPrefix (s pre : String) : Bool :=
  pre.data.isPrefixOf s.data

/-- Go slice expression `s[n:]` (for `n` within the string). -/
def sliceFrom (s : String) (n : Nat) : String :=
  String.mk (s.data.drop n)

/-- Width of Go's `int` (`strconv.IntSize`) on the 64-bit platforms. -/
def intSize : Nat := 64

/-- Largest `uint64`. -/
def maxUint64 : Nat := 2 ^ 64 - 1

/-- The digit loop of `strconv.ParseUint(s, 10, 0)`: `n` is the value read so far.
A character that is not a decimal digit is a syntax error; a value that would
leave the unsigned range of `intSize` bits is a range error (reported with the
largest value). -/
def parseUintLoop : List Char → Nat → Nat × Option GoError
  | [], n => (n, none)
  | c :: cs, n =>
    if '0' ≤ c ∧ c ≤ '9' then
      let d := c.toNat - '0'.toNat
      if n ≥ maxUint64 / 10 + 1 then (2 ^ intSize - 1, some GoError.errRange)
      else
        let n1 := n * 10 + d
        if n1 > 2 ^ intSize - 1 then (2 ^ intSize - 1, some GoError.errRange)
        else parseUintLoop cs n1
    else (0, some GoError.errSyntax)

/-- Go `strconv.ParseUint(s, 10, 0)`. -/
def strconv.ParseUint (s : List Char) : Nat × Option GoError :=
  if s = [] then (0, some GoError.errSyntax) else parseUintLoop s 0

/-- Go `strconv.ParseInt(s, 10, 0)`: optional sign, then `ParseUint`, then the
signed range check. -/
def strconv.ParseInt (s : String) : Int × Option GoError :=
  match s.data with
  | [] => (0, some GoError.errSyntax)
  | c :: cs =>
    let neg : Bool := c = '-'
    let body := if c = '+' ∨ c = '-' then cs else c :: cs
    match strconv.ParseUint body with
    | (un, err) =>
      if err.isSome ∧ err ≠ some GoError.errRange then (0, err)
      else
        let cutoff : Nat := 2 ^ (intSize - 1)
        if neg = false ∧ un ≥ cutoff then ((cutoff : Int) - 1, some GoError.errRange)
        else if neg = true ∧ un > cutoff then (-(cutoff : Int), some GoError.errRange)
        else (if neg then -(un : Int) else (un : Int), none)

/-- Go `strconv.Atoi(s)`, which the library documents as `ParseInt(s, 10, 0)`
converted to `int` (its fast path for short inputs computes the same result). -/
def strconv.Atoi (s : String) : Int × Option GoError :=
  strconv.ParseInt s

/-! ## `chown.go` -/

def PolicyRecursive : String := "recursive"

def PolicyRootOnly : String := "root-only"

structure ChownRequest where
  /-- The name of chown. -/
  Name : String
  /-- The "destination" field of the mount point to chown. -/
  MountPoint : String
  /-- The user (uid) to set for the mount point. -/
  User : Int
  /-- The group (gid) to set for the mount point. -/
  Group : Int
  /-- The policy for chown. -/
  Policy : String
  deriving DecidableEq, Repr

deriving instance DecidableEq for Except

def annotationPrefix : String := "com.launchplatform.oci-hooks.mount-chown."

def annotationMountPointArg : String := "mount-point"

def annotationOwnerArg : String := "owner"

def annotationPolicyArg : String := "policy"

/-- `parseOwner` of `chown.go`: the triple `(uid, gid, err)`. -/
def parseOwner (owner : String) : Int × Int × Option GoError :=
  let parts := strings.Split owner ':'
  if parts.length < 1 ∨ parts.length > 2 then
    (0, 0, some (GoError.segmentCount parts.length))
  else
    match strconv.Atoi (parts.getD 0 "") with
    | (uid, err) =>
      if err.isSome then (0, 0, err)
      else if parts.length = 1 then (uid, 0, none)
      else
        match strconv.Atoi (parts.getD 1 "") with
        | (gid, err) =>
          if err.isSome then (0, 0, err)
          else (uid, gid, none)

/-- A Go `map[string]α`: an association list, one entry per key. -/
abbrev GoMap (α : Type) := List (String × α)

/-- Map read `m[k]` with the comma-ok result as an `Option`. -/
def mapGet {α : Type} : GoMap α → String → Option α
  | [], _ => none
  | (k', v) :: rest, k => if k' = k then some v else mapGet rest k

/-- Map write `m[k] = v`: replaces the entry of `k` or adds one. -/
def mapSet {α : Type} : GoMap α → String → α → GoMap α
  | [], k, v => [(k, v)]
  | (k', v') :: rest, k, v =>
    if k' = k then (k, v) :: rest else (k', v') :: mapSet rest k v

/-- Lines 63-66: the request stored for `name`, or a new one with the `-1` owner
sentinels. -/
def fetchRequest (requests : GoMap ChownRequest) (name : String) : ChownRequest :=
  match mapGet requests name with
  | some request => request
  | none => { Name := name, MountPoint := "", User := -1, Group := -1, Policy := "" }

/-- Lines 67-86: the dispatch on the argument kind. `some request` is the updated
request that line 87 stores; `none` is a `continue`, which stores nothing. -/
def dispatch (request : ChownRequest) (chownArg value : String) : Option ChownRequest :=
  if chownArg = annotationMountPointArg then
    some { request with MountPoint := value }
  else if chownArg = annotationOwnerArg then
    match parseOwner value with
    | (uid, gid, err) =>
      if err.isSome then none
      else if uid < 0 ∨ gid < 0 then none
      else some { request with User := uid, Group := gid }
  else if chownArg = annotationPolicyArg then
    some { request with Policy := value }
  else none

/-- Lines 60-61: the segments of a namespaced key after the namespace. -/
def keyParts (key : String) : List String :=
  strings.Split (sliceFrom key annotationPrefix.length) '.'

/-- Body of the first loop of `parseChownRequests` (lines 56-88) for one
annotation: the intermediate map after the iteration, or the panic of
`parts[1]`. A `continue` leaves the map as it was. -/
def aggregateStep (requests : GoMap ChownRequest) (key value : String) :
    Except Fault (GoMap ChownRequest) :=
  if strings.HasPrefix key annotationPrefix = false then .ok requests
  else
    let parts := keyParts key
    match parts[0]?, parts[1]? with
    | some name, some chownArg =>
      match dispatch (fetchRequest requests name) chownArg value with
      | none => .ok requests
      | some request => .ok (mapSet requests name request)
    | _, _ => .error (Fault.indexOutOfRange 1 parts.length)

/-- The first loop of `parseChownRequests`, over the annotations in the order in
which `range` yields them, starting from the map `requests`. -/
def aggregate (requests : GoMap ChownRequest) :
    List (String × String) → Except Fault (GoMap ChownRequest)
  | [] => .ok requests
  | (key, value) :: rest =>
    match aggregateStep requests key value with
    | .error e => .error e
    | .ok requests' => aggregate requests' rest

/-- Body of the second loop of `parseChownRequests` (lines 92-110) for one
assembled request. -/
def validateStep (mountPointRequests : GoMap ChownRequest) (request : ChownRequest) :
    GoMap ChownRequest :=
  let emptyValue := false
  let emptyValue := if request.MountPoint = "" then true else emptyValue
  let emptyValue := if request.User = -1 ∨ request.Group = -1 then true else emptyValue
  let emptyValue :=
    if request.Policy ≠ "" ∧ request.Policy ≠ PolicyRecursive ∧
        request.Policy ≠ PolicyRootOnly then true
    else emptyValue
  if emptyValue then mountPointRequests
  else mapSet mountPointRequests request.MountPoint request

/-- The second loop of `parseChownRequests`, over the entries of the intermediate
map in the order in which `range` yields them. -/
def rekey (entries : GoMap ChownRequest) : GoMap ChownRequest :=
  entries.foldl (fun out entry => validateStep out entry.2) []

/-- A choice of iteration order for `range` over the intermediate map: some
rearrangement of its entries. -/
structure RangeOrder where
  order : GoMap ChownRequest → GoMap ChownRequest
  perm : ∀ m, (order m).Perm m

/-- Iteration in insertion order. -/
def RangeOrder.insertion : RangeOrder := ⟨id, fun _ => List.Perm.refl _⟩

/-- Iteration in reverse insertion order. -/
def RangeOrder.reversed : RangeOrder := ⟨List.reverse, fun m => List.reverse_perm m⟩

/-- `parseChownRequests` of `chown.go`. `annotations` lists the entries of the
input map in the order of the first `range`; `ord` orders the second `range`. -/
def parseChownRequests (ord : RangeOrder) (annotations : List (String × String)) :
    Except Fault (GoMap ChownRequest) :=
  match aggregate [] annotations with
  | .error e => .error e
  | .ok requests => .ok (rekey (ord.order requests))

/-! ## Auxiliary definitions for the statements -/

/-- A new request, as line 65 builds it. -/
def freshRequest (name : String) : ChownRequest :=
  { Name := name, MountPoint := "", User := -1, Group := -1, Policy := "" }

/-- The checks of lines 94-105 that let a request through. -/
def passesChecks (r : ChownRequest) : Prop :=
  r.MountPoint ≠ "" ∧ ¬ (r.User = -1 ∨ r.Group = -1) ∧
    (r.Policy = "" ∨ r.Policy = PolicyRecursive ∨ r.Policy = PolicyRootOnly)

instance (r : ChownRequest) : Decidable (passesChecks r) := by
  unfold passesChecks; infer_instance

/-- Sample annotation set: one complete request `data`, one key outside the
namespace. -/
def sampleAnnotations : List (String × String) :=
  [("com.launchplatform.oci-hooks.mount-chown.data.mount-point", "/data"),
   ("com.launchplatform.oci-hooks.mount-chown.data.owner", "1000:1000"),
   ("com.launchplatform.oci-hooks.mount-chown.data.policy", "recursive"),
   ("org.opencontainers.image.title", "demo")]

/-- The request that `sampleAnnotations` describes. -/
def sampleRequest : ChownRequest :=
  { Name := "data", MountPoint := "/data", User := 1000, Group := 1000,
    Policy := "recursive" }

/-! ## Integer literals (specification side) -/

/-- Value of a run of decimal digits, most significant first. -/
def digitsValue (digits : List Char) : Nat :=
  digits.foldl (fun n c => n * 10 + (c.toNat - 48)) 0

/-- Sign and digit run of a candidate integer literal. -/
def signAndDigits (s : String) : Bool × List Char :=
  match s.data with
  | '+' :: digits => (false, digits)
  | '-' :: digits => (true, digits)
  | digits => (false, digits)

/-- A base-10 integer literal of Go's `int`: an optional sign, then at least one
decimal digit, with a value from `-2^(intSize-1)` to `2^(intSize-1) - 1`. -/
def isIntLiteral (s : String) : Bool :=
  let (neg, digits) := signAndDigits s
  !digits.isEmpty && digits.all Char.isDigit &&
    (if neg then decide (digitsValue digits ≤ 2 ^ (intSize - 1))
     else decide (digitsValue digits < 2 ^ (intSize - 1)))

/-- The integer that a literal denotes. -/
def literalValue (s : String) : Int :=
  let (neg, digits) := signAndDigits s
  if neg then -(digitsValue digits : Int) else (digitsValue digits : Int)

/-- Left fold of the digit step from `n`. -/
def digitsFrom (n : Nat) (digits : List Char) : Nat :=
  digits.foldl (fun n c => n * 10 + (c.toNat - 48)) n

/-- The annotation key `<namespace><name>.<arg>`. -/
def fragmentKey (name arg : String) : String :=
  annotationPrefix ++ name ++ "." ++ arg

/-- Whether an annotation key lies in the namespace of `annotationPrefix`. -/
def namespaced (kv : String × String) : Bool :=
  strings.HasPrefix kv.1 annotationPrefix

/-- Whether an annotation is a namespaced one whose first segment is `name`. -/
def belongsTo (name : String) (kv : String × String) : Bool :=
  strings.HasPrefix kv.1 annotationPrefix && decide ((keyParts kv.1).head? = some name)

/-- The argument kind and value that an annotation contributes to the request `name`,
if it is a namespaced annotation of that name with a second segment. -/
def fragmentOf (name : String) (kv : String × String) : Option (String × String) :=
  if strings.HasPrefix kv.1 annotationPrefix = true then
    match keyParts kv.1 with
    | first :: arg :: _ => if first = name then some (arg, kv.2) else none
    | _ => none
  else none

/-- The request of `name` after the fragments `(arg, value)` are dispatched in turn,
starting from the stored request `r` (`none`: nothing stored yet). -/
def assemble (name : String) : Option ChownRequest → List (String × String) →
    Option ChownRequest
  | r, [] => r
  | r, (arg, value) :: rest =>
    match dispatch (r.getD (freshRequest name)) arg value with
    | none => assemble name r rest
    | some r' => assemble name (some r') rest

/-- Annotations with a mount point and a policy for `data` but no owner. -/
def partialAnnotations : List (String × String) :=
  [("com.launchplatform.oci-hooks.mount-chown.data.mount-point", "/data"),
   ("com.launchplatform.oci-hooks.mount-chown.data.policy", "recursive"),
   ("org.opencontainers.image.title", "demo")]

/-- Annotations whose only owner fragment for `data` has a negative uid. -/
def negativeOwnerAnnotations : List (String × String) :=
  [("com.launchplatform.oci-hooks.mount-chown.data.mount-point", "/data"),
   ("com.launchplatform.oci-hooks.mount-chown.data.owner", "-1:0"),
   ("com.launchplatform.oci-hooks.mount-chown.data.policy", "recursive")]

/-- The owner pair that lines 70-80 accept from an owner value, if any. -/
def acceptedOwner (value : String) : Option (Int × Int) :=
  match parseOwner value with
  | (uid, gid, err) =>
    if err.isSome then none
    else if uid < 0 ∨ gid < 0 then none
    else some (uid, gid)

/-- The three fragment annotations of one name with the given values. -/
def tripleOf (name mountPoint owner policy : String) : List (String × String) :=
  [(annotationPrefix ++ name ++ ".mount-point", mountPoint),
   (annotationPrefix ++ name ++ ".owner", owner),
   (annotationPrefix ++ name ++ ".policy", policy)]

/-- A good request `data` among a request without owner, a request with an unknown
policy, an unknown argument kind and a foreign key. -/
def mixedAnnotations : List (String × String) :=
  [("com.launchplatform.oci-hooks.mount-chown.logs.mount-point", "/logs"),
   (annotationPrefix ++ "data" ++ ".owner", "1000:1000"),
   ("com.launchplatform.oci-hooks.mount-chown.tmp.policy", "everything"),
   ("com.launchplatform.oci-hooks.mount-chown.tmp.owner", "0"),
   (annotationPrefix ++ "data" ++ ".mount-point", "/data"),
   ("com.launchplatform.oci-hooks.mount-chown.tmp.mount-point", "/tmp"),
   ("com.launchplatform.oci-hooks.mount-chown.data2.mode", "0755"),
   ("org.opencontainers.image.title", "demo")]

/-- The second loop's body as section 4.2 of the specification words it: discard on an
empty mount point, discard unless `user >= 0 && group >= 0`, discard on a policy that
is neither empty nor recognized, otherwise insert under the mount point. -/
def validateStepSpec (mountPointRequests : GoMap ChownRequest) (request : ChownRequest) :
    GoMap ChownRequest :=
  if request.MountPoint = "" then mountPointRequests
  else if ¬ (request.User ≥ 0 ∧ request.Group ≥ 0) then mountPointRequests
  else if ¬ (request.Policy = "" ∨ request.Policy = "recursive" ∨
      request.Policy = "root-only") then mountPointRequests
  else mapSet mountPointRequests request.MountPoint request

/-- The second loop with the specification's body. -/
def rekeySpec (entries : GoMap ChownRequest) : GoMap ChownRequest :=
  entries.foldl (fun out entry => validateStepSpec out entry.2) []

/-- A request of `data` with a mount point and nothing else. -/
def mountedRequest : ChownRequest :=
  { Name := "data", MountPoint := "/data", User := -1, Group := -1, Policy := "" }

/-- A request of `data` with a mount point and a policy but no accepted owner. -/
def unownedRequest : ChownRequest :=
  { Name := "data", MountPoint := "/data", User := -1, Group := -1,
    Policy := "recursive" }

/-- The distinct names (first segments) of the namespaced keys of an annotation
sequence. -/
def namesOf (annotations : List (String × String)) : List String :=
  ((annotations.filter namespaced).filterMap (fun kv => (keyParts kv.1).head?)).dedup

/-- The request of `data` in `mixedAnnotations`, which has no policy. -/
def plainRequest : ChownRequest :=
  { Name := "data", MountPoint := "/data", User := 1000, Group := 1000, Policy := "" }

/-- The annotations of `name` in the sequence are exactly a mount point `p`, an owner
`o` and a policy `q`, or a mount point and an owner alone, `q` being empty then. -/
def holdsRequest (annotations : List (String × String)) (name p o q : String) : Prop :=
  ((annotations.filter (belongsTo name)).Perm
      [(annotationPrefix ++ name ++ ".mount-point", p),
       (annotationPrefix ++ name ++ ".owner", o)] ∧ q = "") ∨
    (annotations.filter (belongsTo name)).Perm (tripleOf name p o q)

/-- Two fully valid requests `data` and `logs` for the same mount point `/shared`. -/
def collidingAnnotations : List (String × String) :=
  [(annotationPrefix ++ "logs" ++ ".owner", "0"),
   (annotationPrefix ++ "data" ++ ".policy", "recursive"),
   ("org.opencontainers.image.title", "demo"),
   (annotationPrefix ++ "data" ++ ".mount-point", "/shared"),
   (annotationPrefix ++ "logs" ++ ".mount-point", "/shared"),
   (annotationPrefix ++ "data" ++ ".owner", "1000:1000")]

/-- The request of `data` in `collidingAnnotations`. -/
def sharedDataRequest : ChownRequest :=
  { Name := "data", MountPoint := "/shared", User := 1000, Group := 1000,
    Policy := "recursive" }

/-- The request of `logs` in `collidingAnnotations`. -/
def sharedLogsRequest : ChownRequest :=
  { Name := "logs", MountPoint := "/shared", User := 0, Group := 0, Policy := "" }

/-- Annotations of two requests with different mount points, with no two keys of the
same name and argument kind. -/
def unambiguousAnnotations : List (String × String) :=
  [(annotationPrefix ++ "logs" ++ ".owner", "0"),
   (annotationPrefix ++ "data" ++ ".policy", "recursive"),
   ("org.opencontainers.image.title", "demo"),
   (annotationPrefix ++ "data" ++ ".mount-point", "/data"),
   (annotationPrefix ++ "logs" ++ ".mount-point", "/logs"),
   (annotationPrefix ++ "data" ++ ".owner", "1000:1000")]

/-! # Lemmas -/

/-! ## Maps -/

theorem mem_mapSet {α : Type} (m : GoMap α) (k : String) (v : α) (e : String × α)
    (h : e ∈ mapSet m k v) : e = (k, v) ∨ e ∈ m := by
  induction m with
  | nil => simpa [mapSet] using h
  | cons hd tl ih =>
    obtain ⟨k', v'⟩ := hd
    by_cases hk : k' = k
    · simp only [mapSet, hk, if_true, List.mem_cons] at h
      rcases h with h | h
      · exact Or.inl h
      · exact Or.inr (List.mem_cons_of_mem _ h)
    · simp only [mapSet, hk, if_false, List.mem_cons] at h
      rcases h with h | h
      · exact Or.inr (h ▸ List.mem_cons_self _ _)
      · rcases ih h with h' | h'
        · exact Or.inl h'
        · exact Or.inr (List.mem_cons_of_mem _ h')

theorem mapGet_mapSet {α : Type} (m : GoMap α) (k k' : String) (v : α) :
    mapGet (mapSet m k v) k' = if k = k' then some v else mapGet m k' := by
  induction m with
  | nil => simp [mapSet, mapGet]
  | cons hd tl ih =>
    obtain ⟨k0, v0⟩ := hd
    by_cases h0 : k0 = k
    · subst h0
      by_cases h1 : k0 = k' <;> simp [mapSet, mapGet, h1]
    · by_cases h1 : k0 = k'
      · subst h1
        have : ¬ k = k0 := fun h => h0 h.symm
        simp [mapSet, mapGet, h0, this]
      · simp [mapSet, mapGet, h0, h1, ih]

theorem mem_of_mapGet {α : Type} (m : GoMap α) (k : String) (v : α)
    (h : mapGet m k = some v) : (k, v) ∈ m := by
  induction m with
  | nil => simp [mapGet] at h
  | cons hd tl ih =>
    obtain ⟨k0, v0⟩ := hd
    by_cases h0 : k0 = k
    · simp only [mapGet, h0, if_true, Option.some.injEq] at h
      subst h0; subst h
      exact List.mem_cons_self _ _
    · simp only [mapGet, h0, if_false] at h
      exact List.mem_cons_of_mem _ (ih h)

/-! ## The first loop -/

theorem fetchRequest_cases (m : GoMap ChownRequest) (name : String) :
    (mapGet m name = none ∧ fetchRequest m name = freshRequest name) ∨
      (mapGet m name = some (fetchRequest m name)) := by
  unfold fetchRequest freshRequest
  cases h : mapGet m name <;> simp

/-- What one iteration of the first loop can do: fault, leave the map alone, or store
the dispatched request under the name of the key. -/
theorem aggregateStep_ok (m m' : GoMap ChownRequest) (key value : String)
    (h : aggregateStep m key value = .ok m') :
    m' = m ∨ (strings.HasPrefix key annotationPrefix = true ∧
      ∃ name arg rest r, keyParts key = name :: arg :: rest ∧
        dispatch (fetchRequest m name) arg value = some r ∧ m' = mapSet m name r) := by
  unfold aggregateStep at h
  cases hp : strings.HasPrefix key annotationPrefix with
  | false =>
    simp only [hp, if_true, Except.ok.injEq] at h
    exact Or.inl h.symm
  | true =>
    simp only [hp, Bool.true_eq_false, if_false] at h
    rcases hk : keyParts key with _ | ⟨name, _ | ⟨arg, rest⟩⟩
    · simp [hk] at h
    · simp [hk] at h
    · simp only [hk, List.getElem?_cons_zero, List.getElem?_cons_succ] at h
      cases hd : dispatch (fetchRequest m name) arg value with
      | none =>
        simp only [hd, Except.ok.injEq] at h
        exact Or.inl h.symm
      | some r =>
        simp only [hd, Except.ok.injEq] at h
        exact Or.inr ⟨rfl, name, arg, rest, r, rfl, hd, h.symm⟩

/-- A property of the entries of the intermediate map that holds for a new request
and that every stored update keeps holds after the first loop. -/
theorem aggregate_forall (Q : String → ChownRequest → Prop) (l : List (String × String))
    (hstep : ∀ kv ∈ l, strings.HasPrefix kv.1 annotationPrefix = true →
      ∀ name arg rest, keyParts kv.1 = name :: arg :: rest →
      ∀ r r', (r = freshRequest name ∨ Q name r) → dispatch r arg kv.2 = some r' → Q name r')
    (m m' : GoMap ChownRequest) (hm : ∀ e ∈ m, Q e.1 e.2)
    (h : aggregate m l = .ok m') : ∀ e ∈ m', Q e.1 e.2 := by
  induction l generalizing m with
  | nil =>
    simp only [aggregate, Except.ok.injEq] at h
    subst h; exact hm
  | cons kv rest ih =>
    obtain ⟨key, value⟩ := kv
    simp only [aggregate] at h
    cases hs : aggregateStep m key value with
    | error e => simp [hs] at h
    | ok m1 =>
      simp only [hs] at h
      refine ih (fun kv hkv => hstep kv (List.mem_cons_of_mem _ hkv)) m1 ?_ h
      rcases aggregateStep_ok m m1 key value hs with h1 | ⟨hp, name, arg, rest', r, hk, hd, h1⟩
      · subst h1; exact hm
      · subst h1
        intro e he
        rcases mem_mapSet m name r e he with he' | he'
        · subst he'
          refine hstep (key, value) (List.mem_cons_self _ _) hp name arg rest' hk
            (fetchRequest m name) r ?_ hd
          rcases fetchRequest_cases m name with ⟨_, hf⟩ | hf
          · exact Or.inl hf
          · exact Or.inr (hm _ (mem_of_mapGet m name _ hf))
        · exact hm e he'

/-- The owner fields after a dispatch: both still as they were, or both set to values
that are not negative. -/
theorem dispatch_owner (r r' : ChownRequest) (arg value : String)
    (h : dispatch r arg value = some r') :
    (r'.User = r.User ∧ r'.Group = r.Group) ∨ (0 ≤ r'.User ∧ 0 ≤ r'.Group) := by
  unfold dispatch at h
  split_ifs at h with h1 h2 h3
  · simp only [Option.some.injEq] at h; subst h; exact Or.inl ⟨rfl, rfl⟩
  · rcases hp : parseOwner value with ⟨uid, gid, err⟩
    simp only [hp] at h
    split_ifs at h with h4 h5
    simp only [Option.some.injEq] at h; subst h
    right
    simp only [not_or, not_lt] at h5
    exact h5
  · simp only [Option.some.injEq] at h; subst h; exact Or.inl ⟨rfl, rfl⟩

/-- After the first loop every assembled request has both owner fields at the
sentinel or both non-negative. -/
theorem aggregate_owner (l : List (String × String)) (m : GoMap ChownRequest)
    (h : aggregate [] l = .ok m) :
    ∀ e ∈ m, (e.2.User = -1 ∧ e.2.Group = -1) ∨ (0 ≤ e.2.User ∧ 0 ≤ e.2.Group) := by
  refine aggregate_forall
    (fun _ r => (r.User = -1 ∧ r.Group = -1) ∨ (0 ≤ r.User ∧ 0 ≤ r.Group)) l ?_ [] m
    (by simp) h
  intro kv _ _ name arg rest _ r r' hr hd
  have hr' : (r.User = -1 ∧ r.Group = -1) ∨ (0 ≤ r.User ∧ 0 ≤ r.Group) := by
    rcases hr with hr | hr
    · subst hr; exact Or.inl ⟨rfl, rfl⟩
    · exact hr
  rcases dispatch_owner r r' arg kv.2 hd with ⟨hu, hg⟩ | hpos
  · rw [hu, hg]; exact hr'
  · exact Or.inr hpos

/-! ## The second loop -/

theorem validateStep_eq (out : GoMap ChownRequest) (r : ChownRequest) :
    validateStep out r = if passesChecks r then mapSet out r.MountPoint r else out := by
  unfold validateStep passesChecks
  by_cases h1 : r.MountPoint = "" <;> by_cases h2 : (r.User = -1 ∨ r.Group = -1) <;>
    by_cases h3 : r.Policy = "" <;> by_cases h4 : r.Policy = PolicyRecursive <;>
    by_cases h5 : r.Policy = PolicyRootOnly <;> simp [h1, h2, h3, h4, h5]

theorem foldl_validateStep_mem (entries out : GoMap ChownRequest) (e : String × ChownRequest)
    (h : e ∈ entries.foldl (fun out entry => validateStep out entry.2) out) :
    e ∈ out ∨ (∃ e' ∈ entries, e.2 = e'.2 ∧ e.1 = e.2.MountPoint ∧ passesChecks e.2) := by
  induction entries generalizing out with
  | nil => exact Or.inl h
  | cons hd tl ih =>
    simp only [List.foldl_cons] at h
    rcases ih _ h with h1 | ⟨e', he', h2⟩
    · rw [validateStep_eq] at h1
      by_cases hp : passesChecks hd.2
      · simp only [hp, if_true] at h1
        rcases mem_mapSet _ _ _ _ h1 with h3 | h3
        · right
          refine ⟨hd, List.mem_cons_self _ _, ?_⟩
          subst h3
          exact ⟨rfl, rfl, hp⟩
        · exact Or.inl h3
      · simp only [hp, if_false] at h1
        exact Or.inl h1
    · exact Or.inr ⟨e', List.mem_cons_of_mem _ he', h2⟩

/-- Every entry of the result of the second loop is an assembled request that passed
the checks, stored under its mount point. -/
theorem rekey_mem (entries : GoMap ChownRequest) (e : String × ChownRequest)
    (h : e ∈ rekey entries) :
    ∃ e' ∈ entries, e.2 = e'.2 ∧ e.1 = e.2.MountPoint ∧ passesChecks e.2 := by
  rcases foldl_validateStep_mem entries [] e h with h1 | h1
  · simp at h1
  · exact h1

/-! ## Integer literals and `strconv.Atoi` -/

theorem digit_iff (c : Char) : ('0' ≤ c ∧ c ≤ '9') ↔ c.isDigit = true := by
  simp [Char.isDigit, Char.le_def, UInt32.le_def]

theorem le_digitsFrom (n : Nat) (digits : List Char) : n ≤ digitsFrom n digits := by
  induction digits generalizing n with
  | nil => exact Nat.le_refl _
  | cons c cs ih =>
    have := ih (n * 10 + (c.toNat - 48))
    simp only [digitsFrom, List.foldl_cons] at this ⊢
    omega

theorem parseUintLoop_ok (digits : List Char) (n : Nat)
    (hd : digits.all Char.isDigit = true) (hv : digitsFrom n digits ≤ 2 ^ intSize - 1) :
    parseUintLoop digits n = (digitsFrom n digits, none) := by
  induction digits generalizing n with
  | nil => rfl
  | cons c cs ih =>
    simp only [List.all_cons, Bool.and_eq_true] at hd
    have hc : '0' ≤ c ∧ c ≤ '9' := (digit_iff c).2 hd.1
    have hle := le_digitsFrom (n * 10 + (c.toNat - 48)) cs
    simp only [digitsFrom, List.foldl_cons] at hv hle ⊢
    have h64 : (2 : Nat) ^ intSize - 1 = 18446744073709551615 := by decide
    rw [h64] at hv
    have h1 : ¬ n ≥ maxUint64 / 10 + 1 := by
      have : maxUint64 / 10 + 1 = 1844674407370955162 := by decide
      rw [this]; omega
    have h2 : ¬ n * 10 + (c.toNat - '0'.toNat) > 2 ^ intSize - 1 := by
      rw [h64]
      have : '0'.toNat = 48 := rfl
      rw [this]; omega
    unfold parseUintLoop
    simp only [hc, and_self, if_true, h1, if_false, h2]
    have := ih (n * 10 + (c.toNat - 48)) hd.2 (by rw [h64]; exact hv)
    simpa [digitsFrom] using this

theorem parseUintLoop_error (digits : List Char) (n : Nat) (hn : n ≤ 2 ^ intSize - 1)
    (h : digits.all Char.isDigit = false ∨ 2 ^ intSize - 1 < digitsFrom n digits) :
    (parseUintLoop digits n).2 = some GoError.errSyntax ∨
      parseUintLoop digits n = (2 ^ intSize - 1, some GoError.errRange) := by
  induction digits generalizing n with
  | nil =>
    rcases h with h | h
    · simp at h
    · simp only [digitsFrom, List.foldl_nil] at h
      omega
  | cons c cs ih =>
    have h48 : '0'.toNat = 48 := rfl
    unfold parseUintLoop
    rw [h48]
    by_cases hc : '0' ≤ c ∧ c ≤ '9'
    · simp only [hc, and_self, if_true]
      by_cases h1 : n ≥ maxUint64 / 10 + 1
      · simp only [h1, if_true]
        simp
      · simp only [h1, if_false]
        by_cases h2 : n * 10 + (c.toNat - 48) > 2 ^ intSize - 1
        · simp only [h2, if_true]
          simp
        · simp only [h2, if_false]
          apply ih _ (Nat.le_of_not_gt h2)
          rcases h with h | h
          · left
            have hc' := (digit_iff c).1 hc
            simpa [hc'] using h
          · right
            simpa [digitsFrom] using h
    · simp only [hc, if_false]
      simp

theorem signAndDigits_nil (s : String) (h : s.data = []) : signAndDigits s = (false, []) := by
  unfold signAndDigits; rw [h]

theorem signAndDigits_cons (s : String) (c : Char) (cs : List Char) (h : s.data = c :: cs) :
    signAndDigits s = (decide (c = '-'), if c = '+' ∨ c = '-' then cs else c :: cs) := by
  unfold signAndDigits; rw [h]
  by_cases h1 : c = '+'
  · subst h1; simp
  · by_cases h2 : c = '-'
    · subst h2; simp
    · simp only [h1, h2, or_self, if_false, decide_False]
      split
      · rename_i heq; simp only [List.cons.injEq] at heq; exact absurd heq.1 h1
      · rename_i heq; simp only [List.cons.injEq] at heq; exact absurd heq.1 h2
      · rfl

theorem digitsValue_eq (digits : List Char) : digitsValue digits = digitsFrom 0 digits := rfl

/-- `strconv.Atoi` on an integer literal returns its value and no error. -/
theorem Atoi_of_literal (s : String) (h : isIntLiteral s = true) :
    strconv.Atoi s = (literalValue s, none) := by
  unfold strconv.Atoi strconv.ParseInt
  rcases hs : s.data with _ | ⟨c, cs⟩
  · simp [isIntLiteral, signAndDigits_nil s hs] at h
  · have hsd := signAndDigits_cons s c cs hs
    simp only [isIntLiteral, literalValue, hsd, Bool.and_eq_true, Bool.not_eq_true',
      List.isEmpty_eq_false] at h ⊢
    obtain ⟨⟨hne, hdig⟩, hrange⟩ := h
    have h63 : (2 : Nat) ^ (intSize - 1) = 9223372036854775808 := by decide
    have h64 : (2 : Nat) ^ intSize - 1 = 18446744073709551615 := by decide
    generalize hb : (if c = '+' ∨ c = '-' then cs else c :: cs) = body at hne hdig hrange
    have hle : digitsValue body ≤ 2 ^ intSize - 1 := by
      rw [h64]
      by_cases hneg : c = '-'
      · simp only [hneg, decide_True, if_true, decide_eq_true_eq, h63] at hrange; omega
      · simp only [hneg, decide_False, Bool.false_eq_true, if_false, decide_eq_true_eq,
          h63] at hrange; omega
    have hloop := parseUintLoop_ok body 0 hdig (by rw [← digitsValue_eq]; exact hle)
    have hpu : strconv.ParseUint body = (digitsValue body, none) := by
      unfold strconv.ParseUint
      have : body ≠ [] := by
        intro hnil; simp [hnil] at hne
      simp only [this, if_false, hloop, digitsValue_eq]
    simp only [hpu]
    by_cases hneg : c = '-'
    · simp only [hneg, decide_True, if_true, decide_eq_true_eq, h63] at hrange ⊢
      simp
      omega
    · simp only [hneg, decide_False, Bool.false_eq_true, if_false, decide_eq_true_eq,
          h63] at hrange ⊢
      simp
      omega

/-- `strconv.Atoi` on anything that is not an integer literal returns an error. -/
theorem Atoi_of_not_literal (s : String) (h : isIntLiteral s = false) :
    (strconv.Atoi s).2.isSome = true := by
  unfold strconv.Atoi strconv.ParseInt
  rcases hs : s.data with _ | ⟨c, cs⟩
  · rfl
  · have hsd := signAndDigits_cons s c cs hs
    simp only [isIntLiteral, hsd] at h
    have h63 : (2 : Nat) ^ (intSize - 1) = 9223372036854775808 := by decide
    have h64 : (2 : Nat) ^ intSize - 1 = 18446744073709551615 := by decide
    simp only
    generalize (if c = '+' ∨ c = '-' then cs else c :: cs) = body at h ⊢
    by_cases hnil : body = []
    · subst hnil
      simp [strconv.ParseUint]
    · have hpu : strconv.ParseUint body = parseUintLoop body 0 := by
        unfold strconv.ParseUint
        simp only [hnil, if_false]
      rw [hpu]
      by_cases hok : body.all Char.isDigit = true ∧ digitsValue body ≤ 2 ^ intSize - 1
      · have hloop := parseUintLoop_ok body 0 hok.1 (by rw [← digitsValue_eq]; exact hok.2)
        rw [hloop, ← digitsValue_eq]
        have hne : body.isEmpty = false := by
          cases body with
          | nil => exact absurd rfl hnil
          | cons _ _ => rfl
        simp only [hne, hok.1, Bool.not_false, Bool.true_and] at h
        by_cases hneg : c = '-'
        · simp only [hneg, decide_True, if_true, decide_eq_false_iff_not, h63] at h ⊢
          have : (9223372036854775808 : Nat) < digitsValue body := by omega
          simp [this]
        · simp only [hneg, decide_False, Bool.false_eq_true, if_false,
            decide_eq_false_iff_not, h63] at h ⊢
          have : (9223372036854775808 : Nat) ≤ digitsValue body := by omega
          simp [this]
      · have herr := parseUintLoop_error body 0 (Nat.zero_le _) (by
          rw [← digitsValue_eq]
          by_cases hd : body.all Char.isDigit = true
          · right
            have h2 : ¬ digitsValue body ≤ 2 ^ intSize - 1 := fun h2 => hok ⟨hd, h2⟩
            rw [h64] at h2 ⊢
            omega
          · left; simpa using hd)
        rcases herr with herr | herr
        · rcases hl : parseUintLoop body 0 with ⟨un, err⟩
          rw [hl] at herr
          simp only at herr
          subst herr
          simp
        · rw [herr]
          simp only [h63, h64]
          by_cases hneg : c = '-' <;> simp [hneg]

/-! ## Splitting -/

theorem splitChars_ne_nil (sep : Char) (l : List Char) : splitChars sep l ≠ [] := by
  cases l with
  | nil => simp [splitChars]
  | cons c cs =>
    unfold splitChars
    by_cases h : c = sep
    · simp [h]
    · simp only [h, if_false]
      split <;> simp

theorem splitChars_of_not_mem (sep : Char) (l : List Char) (h : sep ∉ l) :
    splitChars sep l = [l] := by
  induction l with
  | nil => rfl
  | cons c cs ih =>
    simp only [List.mem_cons, not_or] at h
    have hc : ¬ c = sep := fun e => h.1 e.symm
    unfold splitChars
    simp [hc, ih h.2]

theorem splitChars_append (sep : Char) (a b : List Char) :
    splitChars sep (a ++ sep :: b) = splitChars sep a ++ splitChars sep b := by
  induction a with
  | nil => simp [splitChars]
  | cons c cs ih =>
    by_cases hc : c = sep
    · simp [splitChars, hc, ih]
    · simp only [List.cons_append, splitChars, hc, if_false]
      have ih2 : splitChars sep (cs.append (sep :: b)) = splitChars sep cs ++ splitChars sep b := ih
      rw [ih2]
      rcases hs : splitChars sep cs with _ | ⟨seg, segs⟩
      · exact absurd hs (splitChars_ne_nil sep cs)
      · simp

theorem Split_ne_nil (s : String) (sep : Char) : strings.Split s sep ≠ [] := by
  unfold strings.Split
  simp [splitChars_ne_nil]

theorem Split_of_not_mem (s : String) (sep : Char) (h : sep ∉ s.data) :
    strings.Split s sep = [s] := by
  unfold strings.Split
  rw [splitChars_of_not_mem sep s.data h]
  rfl

theorem Split_append (a b : String) (sep : Char) :
    strings.Split (a ++ String.mk [sep] ++ b) sep = strings.Split a sep ++ strings.Split b sep := by
  unfold strings.Split
  simp only [String.data_append, List.append_assoc, List.singleton_append]
  rw [splitChars_append, List.map_append]

/-! ## `parseOwner` -/

/-- The three ways `parseOwner` ends: one literal segment, two literal segments, or an
error with the pair `(0, 0)`. -/
theorem parseOwner_cases (s : String) :
    (∃ p0, strings.Split s ':' = [p0] ∧ isIntLiteral p0 = true ∧
        parseOwner s = (literalValue p0, 0, none)) ∨
    (∃ p0 p1, strings.Split s ':' = [p0, p1] ∧ isIntLiteral p0 = true ∧
        isIntLiteral p1 = true ∧ parseOwner s = (literalValue p0, literalValue p1, none)) ∨
    ((3 ≤ (strings.Split s ':').length ∨ ∃ seg ∈ strings.Split s ':', isIntLiteral seg = false) ∧
        ∃ e, parseOwner s = (0, 0, some e)) := by
  unfold parseOwner
  rcases hparts : strings.Split s ':' with _ | ⟨p0, _ | ⟨p1, _ | ⟨p2, rest⟩⟩⟩
  · exact absurd hparts (Split_ne_nil s ':')
  · cases h0 : isIntLiteral p0 with
    | true =>
      left
      refine ⟨p0, rfl, h0, ?_⟩
      simp [Atoi_of_literal p0 h0]
    | false =>
      right; right
      refine ⟨Or.inr ⟨p0, List.mem_cons_self _ _, h0⟩, ?_⟩
      have he := Atoi_of_not_literal p0 h0
      rcases ha : strconv.Atoi p0 with ⟨v, err⟩
      rw [ha] at he
      simp only at he
      obtain ⟨e, rfl⟩ := Option.isSome_iff_exists.1 he
      exact ⟨e, by simp [ha]⟩
  · cases h0 : isIntLiteral p0 with
    | true =>
      cases h1 : isIntLiteral p1 with
      | true =>
        right; left
        refine ⟨p0, p1, rfl, h0, h1, ?_⟩
        simp [Atoi_of_literal p0 h0, Atoi_of_literal p1 h1]
      | false =>
        right; right
        refine ⟨Or.inr ⟨p1, by simp, h1⟩, ?_⟩
        have he := Atoi_of_not_literal p1 h1
        rcases ha : strconv.Atoi p1 with ⟨v, err⟩
        rw [ha] at he
        simp only at he
        obtain ⟨e, rfl⟩ := Option.isSome_iff_exists.1 he
        exact ⟨e, by simp [Atoi_of_literal p0 h0, ha]⟩
    | false =>
      right; right
      refine ⟨Or.inr ⟨p0, List.mem_cons_self _ _, h0⟩, ?_⟩
      have he := Atoi_of_not_literal p0 h0
      rcases ha : strconv.Atoi p0 with ⟨v, err⟩
      rw [ha] at he
      simp only at he
      obtain ⟨e, rfl⟩ := Option.isSome_iff_exists.1 he
      exact ⟨e, by simp [ha]⟩
  · right; right
    refine ⟨Or.inl (by simp), ?_⟩
    exact ⟨GoError.segmentCount (rest.length + 1 + 1 + 1), by simp⟩

/-! ## Keys -/

theorem HasPrefix_append (x : String) :
    strings.HasPrefix (annotationPrefix ++ x) annotationPrefix = true := by
  unfold strings.HasPrefix
  rw [List.isPrefixOf_iff_prefix, String.data_append]
  exact List.prefix_append _ _

theorem sliceFrom_append (x : String) :
    sliceFrom (annotationPrefix ++ x) annotationPrefix.length = x := by
  unfold sliceFrom
  rw [String.data_append]
  show String.mk (List.drop annotationPrefix.data.length (annotationPrefix.data ++ x.data)) = x
  rw [List.drop_left]

theorem fragmentKey_eq (name arg : String) :
    fragmentKey name arg = annotationPrefix ++ (name ++ String.mk ['.'] ++ arg) := by
  unfold fragmentKey
  apply String.ext
  simp [String.data_append]

theorem HasPrefix_fragmentKey (name arg : String) :
    strings.HasPrefix (fragmentKey name arg) annotationPrefix = true := by
  rw [fragmentKey_eq]; exact HasPrefix_append _

theorem keyParts_fragmentKey (name arg : String) :
    keyParts (fragmentKey name arg) = strings.Split name '.' ++ strings.Split arg '.' := by
  unfold keyParts
  rw [fragmentKey_eq, sliceFrom_append, Split_append]

theorem keyParts_fragmentKey_plain (name arg : String) (hn : '.' ∉ name.data)
    (ha : '.' ∉ arg.data) : keyParts (fragmentKey name arg) = [name, arg] := by
  rw [keyParts_fragmentKey, Split_of_not_mem name '.' hn, Split_of_not_mem arg '.' ha]
  rfl

/-! ## One iteration of the first loop -/

theorem aggregateStep_of_not_namespaced (m : GoMap ChownRequest) (key value : String)
    (hp : strings.HasPrefix key annotationPrefix = false) :
    aggregateStep m key value = .ok m := by
  unfold aggregateStep; simp [hp]

theorem aggregateStep_of_parts (m : GoMap ChownRequest) (key value name arg : String)
    (rest : List String) (hp : strings.HasPrefix key annotationPrefix = true)
    (hk : keyParts key = name :: arg :: rest) :
    aggregateStep m key value =
      .ok (match dispatch (fetchRequest m name) arg value with
           | none => m
           | some r => mapSet m name r) := by
  unfold aggregateStep
  simp only [hp, Bool.true_eq_false, if_false, hk, List.getElem?_cons_zero,
    List.getElem?_cons_succ]
  cases dispatch (fetchRequest m name) arg value <;> rfl

theorem aggregateStep_of_short (m : GoMap ChownRequest) (key value : String)
    (hp : strings.HasPrefix key annotationPrefix = true)
    (hk : (keyParts key).length < 2) :
    aggregateStep m key value = .error (Fault.indexOutOfRange 1 (keyParts key).length) := by
  unfold aggregateStep
  simp only [hp, Bool.true_eq_false, if_false]
  rcases hparts : keyParts key with _ | ⟨name, _ | ⟨arg, rest⟩⟩
  · rfl
  · rfl
  · rw [hparts] at hk; simp only [List.length_cons] at hk; omega

/-- The first loop returns when every namespaced key has a second segment. -/
theorem aggregate_total (l : List (String × String))
    (h : ∀ kv ∈ l, strings.HasPrefix kv.1 annotationPrefix = true →
      2 ≤ (keyParts kv.1).length) (m : GoMap ChownRequest) :
    ∃ m', aggregate m l = .ok m' := by
  induction l generalizing m with
  | nil => exact ⟨m, rfl⟩
  | cons kv rest ih =>
    obtain ⟨key, value⟩ := kv
    have hrest := fun kv hkv => h kv (List.mem_cons_of_mem _ hkv)
    simp only [aggregate]
    cases hp : strings.HasPrefix key annotationPrefix with
    | false =>
      rw [aggregateStep_of_not_namespaced m key value hp]
      exact ih hrest m
    | true =>
      have h2 := h (key, value) (List.mem_cons_self _ _) hp
      rcases hparts : keyParts key with _ | ⟨name, _ | ⟨arg, rest'⟩⟩
      · simp [hparts] at h2
      · simp [hparts] at h2
      · rw [aggregateStep_of_parts m key value name arg rest' hp hparts]
        exact ih hrest _

theorem fetchRequest_eq (m : GoMap ChownRequest) (name : String) :
    fetchRequest m name = (mapGet m name).getD (freshRequest name) := by
  unfold fetchRequest freshRequest
  cases mapGet m name <;> rfl

/-- The three ways a dispatch stores a request. -/
theorem dispatch_some (r r' : ChownRequest) (arg value : String)
    (h : dispatch r arg value = some r') :
    (arg = annotationMountPointArg ∧ r' = { r with MountPoint := value }) ∨
    (arg = annotationOwnerArg ∧ ∃ uid gid, parseOwner value = (uid, gid, none) ∧
        0 ≤ uid ∧ 0 ≤ gid ∧ r' = { r with User := uid, Group := gid }) ∨
    (arg = annotationPolicyArg ∧ r' = { r with Policy := value }) := by
  unfold dispatch at h
  split_ifs at h with h1 h2 h3
  · simp only [Option.some.injEq] at h
    exact Or.inl ⟨h1, h.symm⟩
  · rcases hp : parseOwner value with ⟨uid, gid, err⟩
    simp only [hp] at h
    split_ifs at h with h4 h5
    simp only [Option.some.injEq] at h
    simp only [not_or, not_lt] at h5
    have herr : err = none := by
      cases err with
      | none => rfl
      | some e => simp at h4
    subst herr
    exact Or.inr (Or.inl ⟨h2, uid, gid, rfl, h5.1, h5.2, h.symm⟩)
  · simp only [Option.some.injEq] at h
    exact Or.inr (Or.inr ⟨h3, h.symm⟩)

theorem dispatch_name (r r' : ChownRequest) (arg value : String)
    (h : dispatch r arg value = some r') : r'.Name = r.Name := by
  rcases dispatch_some r r' arg value h with ⟨_, rfl⟩ | ⟨_, _, _, _, _, _, rfl⟩ | ⟨_, rfl⟩ <;> rfl

/-- The entry of `name` after one iteration, in terms of the fragment the annotation
contributes to `name`. -/
theorem aggregateStep_get (m m' : GoMap ChownRequest) (key value name : String)
    (h : aggregateStep m key value = .ok m') :
    mapGet m' name =
      match fragmentOf name (key, value) with
      | none => mapGet m name
      | some fragment => assemble name (mapGet m name) [fragment] := by
  cases hp : strings.HasPrefix key annotationPrefix with
  | false =>
    rw [aggregateStep_of_not_namespaced m key value hp] at h
    simp only [Except.ok.injEq] at h
    subst h
    simp [fragmentOf, hp]
  | true =>
    rcases hparts : keyParts key with _ | ⟨first, _ | ⟨arg, rest⟩⟩
    · rw [aggregateStep_of_short m key value hp (by simp [hparts])] at h
      cases h
    · rw [aggregateStep_of_short m key value hp (by simp [hparts])] at h
      cases h
    · rw [aggregateStep_of_parts m key value first arg rest hp hparts] at h
      simp only [Except.ok.injEq] at h
      subst h
      simp only [fragmentOf, hp, if_true, hparts]
      by_cases hn : first = name
      · subst hn
        simp only [if_true, assemble, ← fetchRequest_eq]
        cases hd : dispatch (fetchRequest m first) arg value with
        | none => rfl
        | some r => simp [mapGet_mapSet]
      · simp only [hn, if_false]
        cases hd : dispatch (fetchRequest m first) arg value with
        | none => rfl
        | some r => simp [mapGet_mapSet, hn]

theorem assemble_append (name : String) (r : Option ChownRequest)
    (xs ys : List (String × String)) :
    assemble name r (xs ++ ys) = assemble name (assemble name r xs) ys := by
  induction xs generalizing r with
  | nil => rfl
  | cons x xs ih =>
    obtain ⟨arg, value⟩ := x
    simp only [List.cons_append, assemble]
    cases dispatch (r.getD (freshRequest name)) arg value <;> exact ih _

/-- The entry of `name` after the first loop is assembled from the fragments of `name`
alone, in their order of iteration. -/
theorem aggregate_get (l : List (String × String)) (m m' : GoMap ChownRequest)
    (name : String) (h : aggregate m l = .ok m') :
    mapGet m' name = assemble name (mapGet m name) (l.filterMap (fragmentOf name)) := by
  induction l generalizing m with
  | nil =>
    simp only [aggregate, Except.ok.injEq] at h
    subst h; rfl
  | cons kv rest ih =>
    obtain ⟨key, value⟩ := kv
    simp only [aggregate] at h
    cases hs : aggregateStep m key value with
    | error e => simp [hs] at h
    | ok m1 =>
      simp only [hs] at h
      rw [ih m1 h, aggregateStep_get m m1 key value name hs]
      cases hf : fragmentOf name (key, value) with
      | none => simp [List.filterMap_cons, hf]
      | some fragment =>
        simp only [List.filterMap_cons, hf]
        exact (assemble_append name (mapGet m name) [fragment] _).symm

/-! ## Annotations outside the namespace -/

theorem aggregate_filter (l : List (String × String)) (m : GoMap ChownRequest) :
    aggregate m l = aggregate m (l.filter namespaced) := by
  induction l generalizing m with
  | nil => rfl
  | cons kv rest ih =>
    obtain ⟨key, value⟩ := kv
    cases hp : strings.HasPrefix key annotationPrefix with
    | false =>
      have hn : namespaced (key, value) = false := hp
      rw [List.filter_cons_of_neg (by simp [hn])]
      simp only [aggregate, aggregateStep_of_not_namespaced m key value hp]
      exact ih m
    | true =>
      have hn : namespaced (key, value) = true := hp
      rw [List.filter_cons_of_pos hn]
      simp only [aggregate]
      cases aggregateStep m key value with
      | error e => rfl
      | ok m1 => exact ih m1

/-! ## Requests that the second loop drops -/

theorem foldl_validateStep_of_none (entries out : GoMap ChownRequest)
    (h : ∀ e ∈ entries, ¬ passesChecks e.2) :
    entries.foldl (fun out entry => validateStep out entry.2) out = out := by
  induction entries generalizing out with
  | nil => rfl
  | cons hd tl ih =>
    simp only [List.foldl_cons]
    rw [validateStep_eq, if_neg (h hd (List.mem_cons_self _ _))]
    exact ih out (fun e he => h e (List.mem_cons_of_mem _ he))

theorem rekey_eq_nil (entries : GoMap ChownRequest)
    (h : ∀ e ∈ entries, ¬ passesChecks e.2) : rekey entries = [] :=
  foldl_validateStep_of_none entries [] h

/-- Without an accepted owner fragment nothing reaches the result. -/
theorem parseChownRequests_nil_of_no_owner (ord : RangeOrder) (l : List (String × String))
    (h2 : ∀ kv ∈ l, strings.HasPrefix kv.1 annotationPrefix = true →
      2 ≤ (keyParts kv.1).length)
    (hno : ∀ kv ∈ l, strings.HasPrefix kv.1 annotationPrefix = true →
      ∀ name arg rest, keyParts kv.1 = name :: arg :: rest → arg ≠ annotationOwnerArg) :
    parseChownRequests ord l = .ok [] := by
  obtain ⟨m, hm⟩ := aggregate_total l h2 []
  unfold parseChownRequests
  simp only [hm, Except.ok.injEq]
  apply rekey_eq_nil
  intro e he
  have he' : e ∈ m := (ord.perm m).subset he
  have hinv : e.2.User = -1 := by
    refine aggregate_forall (fun _ r => r.User = -1) l ?_ [] m (by simp) hm e he'
    intro kv hkv hp name arg rest hk r r' hr hd
    have hr' : r.User = -1 := by
      rcases hr with hr | hr
      · subst hr; rfl
      · exact hr
    rcases dispatch_some r r' arg kv.2 hd with ⟨_, rfl⟩ | ⟨ha, _⟩ | ⟨_, rfl⟩
    · exact hr'
    · exact absurd ha (hno kv hkv hp name arg rest hk)
    · exact hr'
  intro hpass
  exact hpass.2.1 (Or.inl hinv)

/-- Without a mount-point fragment nothing reaches the result. -/
theorem parseChownRequests_nil_of_no_mountPoint (ord : RangeOrder)
    (l : List (String × String))
    (h2 : ∀ kv ∈ l, strings.HasPrefix kv.1 annotationPrefix = true →
      2 ≤ (keyParts kv.1).length)
    (hno : ∀ kv ∈ l, strings.HasPrefix kv.1 annotationPrefix = true →
      ∀ name arg rest, keyParts kv.1 = name :: arg :: rest →
        arg ≠ annotationMountPointArg) :
    parseChownRequests ord l = .ok [] := by
  obtain ⟨m, hm⟩ := aggregate_total l h2 []
  unfold parseChownRequests
  simp only [hm, Except.ok.injEq]
  apply rekey_eq_nil
  intro e he
  have he' : e ∈ m := (ord.perm m).subset he
  have hinv : e.2.MountPoint = "" := by
    refine aggregate_forall (fun _ r => r.MountPoint = "") l ?_ [] m (by simp) hm e he'
    intro kv hkv hp name arg rest hk r r' hr hd
    have hr' : r.MountPoint = "" := by
      rcases hr with hr | hr
      · subst hr; rfl
      · exact hr
    rcases dispatch_some r r' arg kv.2 hd with ⟨ha, _⟩ | ⟨_, _, _, _, _, _, rfl⟩ | ⟨_, rfl⟩
    · exact absurd ha (hno kv hkv hp name arg rest hk)
    · exact hr'
    · exact hr'
  intro hpass
  exact hpass.1 hinv

/-- Every assembled request carries the name it is stored under. -/
theorem aggregate_name (l : List (String × String)) (m : GoMap ChownRequest)
    (h : aggregate [] l = .ok m) : ∀ e ∈ m, e.2.Name = e.1 := by
  refine aggregate_forall (fun k r => r.Name = k) l ?_ [] m (by simp) h
  intro kv _ _ name arg rest _ r r' hr hd
  rw [dispatch_name r r' arg kv.2 hd]
  rcases hr with hr | hr
  · subst hr; rfl
  · exact hr

/-! ## Rearrangements of short lists -/

theorem perm_two_cases {α : Type} {a b : α} {l : List α} (h : l.Perm [a, b]) :
    l = [a, b] ∨ l = [b, a] := by
  have hlen := h.length_eq
  match l, hlen with
  | [x, y], _ =>
    have hx : x ∈ [a, b] := h.subset (List.mem_cons_self _ _)
    simp only [List.mem_cons, List.mem_singleton, List.not_mem_nil, or_false] at hx
    rcases hx with rfl | rfl
    · have h' := List.Perm.cons_inv h
      rw [List.perm_singleton] at h'
      left; rw [h']
    · have h' : [y].Perm [a] := List.Perm.cons_inv (h.trans (List.Perm.swap _ _ _))
      rw [List.perm_singleton] at h'
      right; rw [h']

theorem perm_three_cases {α : Type} {a b c : α} {l : List α} (h : l.Perm [a, b, c]) :
    l = [a, b, c] ∨ l = [a, c, b] ∨ l = [b, a, c] ∨ l = [b, c, a] ∨
      l = [c, a, b] ∨ l = [c, b, a] := by
  have hlen := h.length_eq
  match l, hlen with
  | [x, y, z], _ =>
    have hx : x ∈ [a, b, c] := h.subset (List.mem_cons_self _ _)
    simp only [List.mem_cons, List.mem_singleton, List.not_mem_nil, or_false] at hx
    rcases hx with rfl | rfl | rfl
    · rcases perm_two_cases (List.Perm.cons_inv h) with h' | h' <;> simp [h']
    · have h0 : [x, a, c].Perm [a, x, c] := List.Perm.swap _ _ _
      rcases perm_two_cases (List.Perm.cons_inv (h.trans h0.symm)) with h' | h' <;> simp [h']
    · have h0 : [x, a, b].Perm [a, b, x] := by
        refine (List.Perm.swap _ _ _).trans (List.Perm.cons _ (List.Perm.swap _ _ _))
      rcases perm_two_cases (List.Perm.cons_inv (h.trans h0.symm)) with h' | h' <;> simp [h']

/-! ## The fragments of one well-formed name -/

theorem key_eq_fragmentKey (name : String) :
    annotationPrefix ++ name ++ ".mount-point" = fragmentKey name annotationMountPointArg ∧
    annotationPrefix ++ name ++ ".owner" = fragmentKey name annotationOwnerArg ∧
    annotationPrefix ++ name ++ ".policy" = fragmentKey name annotationPolicyArg := by
  refine ⟨?_, ?_, ?_⟩ <;>
  · apply String.ext
    simp [fragmentKey, annotationMountPointArg, annotationOwnerArg, annotationPolicyArg,
      String.data_append]

theorem tripleOf_eq (name v1 v2 v3 : String) :
    tripleOf name v1 v2 v3 =
      [(fragmentKey name annotationMountPointArg, v1),
       (fragmentKey name annotationOwnerArg, v2),
       (fragmentKey name annotationPolicyArg, v3)] := by
  unfold tripleOf
  rw [(key_eq_fragmentKey name).1, (key_eq_fragmentKey name).2.1,
    (key_eq_fragmentKey name).2.2]

theorem dispatch_mountPoint (r : ChownRequest) (value : String) :
    dispatch r annotationMountPointArg value = some { r with MountPoint := value } := by
  simp [dispatch]

theorem dispatch_policy (r : ChownRequest) (value : String) :
    dispatch r annotationPolicyArg value = some { r with Policy := value } := by
  have h1 : ¬ annotationPolicyArg = annotationMountPointArg := by decide
  have h2 : ¬ annotationPolicyArg = annotationOwnerArg := by decide
  simp [dispatch, h1, h2]

theorem dispatch_owner_eq (r : ChownRequest) (value : String) :
    dispatch r annotationOwnerArg value =
      (acceptedOwner value).map (fun ug => { r with User := ug.1, Group := ug.2 }) := by
  have h1 : ¬ annotationOwnerArg = annotationMountPointArg := by decide
  unfold dispatch acceptedOwner
  simp only [h1, if_false, if_true]
  rcases parseOwner value with ⟨uid, gid, err⟩
  simp only
  split_ifs <;> rfl

theorem aggregateStep_fragmentKey (m : GoMap ChownRequest) (name arg value : String)
    (hn : '.' ∉ name.data) (ha : '.' ∉ arg.data) :
    aggregateStep m (fragmentKey name arg) value =
      .ok (match dispatch (fetchRequest m name) arg value with
           | none => m
           | some r => mapSet m name r) :=
  aggregateStep_of_parts m _ value name arg [] (HasPrefix_fragmentKey name arg)
    (keyParts_fragmentKey_plain name arg hn ha)

/-- The request that the three fragments of a name assemble. -/
theorem aggregate_tripleOf (name v1 v2 v3 : String) (hn : '.' ∉ name.data)
    (l : List (String × String)) (hl : l.Perm (tripleOf name v1 v2 v3)) :
    aggregate [] l = .ok [(name,
      { Name := name, MountPoint := v1, User := ((acceptedOwner v2).getD (-1, -1)).1,
        Group := ((acceptedOwner v2).getD (-1, -1)).2, Policy := v3 })] := by
  rw [tripleOf_eq] at hl
  have hm : '.' ∉ annotationMountPointArg.data := by decide
  have ho : '.' ∉ annotationOwnerArg.data := by decide
  have hp : '.' ∉ annotationPolicyArg.data := by decide
  rcases perm_three_cases hl with h | h | h | h | h | h <;>
  · subst h
    cases hacc : acceptedOwner v2 <;>
    simp [aggregate, aggregateStep_fragmentKey, hn, hm, ho, hp, dispatch_mountPoint,
      dispatch_policy, dispatch_owner_eq, hacc, fetchRequest, mapGet, mapSet]

/-! ## Names that contain the separator -/

theorem splitChars_of_mem (sep : Char) (l : List Char) (h : sep ∈ l) :
    ∃ s0 s1 rest, splitChars sep l = s0 :: s1 :: rest ∧ s0.length < l.length := by
  induction l with
  | nil => simp at h
  | cons c cs ih =>
    by_cases hc : c = sep
    · rcases hs : splitChars sep cs with _ | ⟨s1, rest⟩
      · exact absurd hs (splitChars_ne_nil sep cs)
      · exact ⟨[], s1, rest, by simp [splitChars, hc, hs], by simp⟩
    · have hmem : sep ∈ cs := by
        rcases List.mem_cons.1 h with h' | h'
        · exact absurd h'.symm hc
        · exact h'
      obtain ⟨s0, s1, rest, hs, hlen⟩ := ih hmem
      exact ⟨c :: s0, s1, rest, by simp [splitChars, hc, hs], by simpa using hlen⟩

theorem Split_of_mem (s : String) (sep : Char) (h : sep ∈ s.data) :
    ∃ s0 s1 rest, strings.Split s sep = s0 :: s1 :: rest ∧ s0 ≠ s := by
  obtain ⟨c0, c1, rest, hs, hlen⟩ := splitChars_of_mem sep s.data h
  refine ⟨String.mk c0, String.mk c1, rest.map String.mk, by simp [strings.Split, hs], ?_⟩
  intro heq
  rw [← heq] at hlen
  exact Nat.lt_irrefl _ hlen

/-- The keys of `tripleOf` for a name with a dot: all three are read as fragments of
the part of the name before its first dot, with the next part as argument kind. -/
theorem tripleOf_dotted (name v1 v2 v3 : String) (hn : '.' ∈ name.data) :
    ∃ first arg, first ≠ name ∧
      ∀ kv ∈ tripleOf name v1 v2 v3, strings.HasPrefix kv.1 annotationPrefix = true ∧
        ∃ rest, keyParts kv.1 = first :: arg :: rest := by
  obtain ⟨first, arg, rest, hs, hne⟩ := Split_of_mem name '.' hn
  refine ⟨first, arg, hne, ?_⟩
  intro kv hkv
  rw [tripleOf_eq] at hkv
  simp only [List.mem_cons, List.mem_singleton, List.not_mem_nil, or_false] at hkv
  rcases hkv with rfl | rfl | rfl <;>
  · refine ⟨HasPrefix_fragmentKey _ _, ?_⟩
    simp only [keyParts_fragmentKey, hs, List.cons_append]
    exact ⟨_, rfl⟩

theorem rekey_singleton (name : String) (r : ChownRequest) :
    rekey [(name, r)] = if passesChecks r then [(r.MountPoint, r)] else [] := by
  unfold rekey
  simp only [List.foldl_cons, List.foldl_nil, validateStep_eq]
  split_ifs <;> rfl

theorem order_singleton (ord : RangeOrder) (e : String × ChownRequest) :
    ord.order [e] = [e] :=
  List.perm_singleton.1 (ord.perm [e])

/-! ## One entry per key -/

theorem mapSet_keys_nodup {α : Type} (m : GoMap α) (k : String) (v : α)
    (h : (m.map Prod.fst).Nodup) : ((mapSet m k v).map Prod.fst).Nodup := by
  induction m with
  | nil => simp [mapSet]
  | cons hd tl ih =>
    obtain ⟨k0, v0⟩ := hd
    simp only [List.map_cons, List.nodup_cons] at h
    by_cases h0 : k0 = k
    · subst h0
      simpa [mapSet] using h
    · simp only [mapSet, h0, if_false, List.map_cons, List.nodup_cons]
      refine ⟨?_, ih h.2⟩
      intro hmem
      obtain ⟨e, he, hk⟩ := List.mem_map.1 hmem
      rcases mem_mapSet tl k v e he with he' | he'
      · subst he'; exact h0 hk.symm
      · exact h.1 (List.mem_map.2 ⟨e, he', hk⟩)

theorem mapGet_of_mem {α : Type} (m : GoMap α) (k : String) (v : α)
    (hnd : (m.map Prod.fst).Nodup) (h : (k, v) ∈ m) : mapGet m k = some v := by
  induction m with
  | nil => simp at h
  | cons hd tl ih =>
    obtain ⟨k0, v0⟩ := hd
    simp only [List.map_cons, List.nodup_cons] at hnd
    rcases List.mem_cons.1 h with h' | h'
    · simp only [Prod.mk.injEq] at h'
      simp [mapGet, h'.1, h'.2]
    · have hne : ¬ k0 = k := by
        intro heq
        subst heq
        exact hnd.1 (List.mem_map.2 ⟨(k0, v), h', rfl⟩)
      simp only [mapGet, hne, if_false]
      exact ih hnd.2 h'

/-- The intermediate map keeps one entry per name. -/
theorem aggregate_keys_nodup (l : List (String × String)) (m m' : GoMap ChownRequest)
    (hm : (m.map Prod.fst).Nodup) (h : aggregate m l = .ok m') :
    (m'.map Prod.fst).Nodup := by
  induction l generalizing m with
  | nil =>
    simp only [aggregate, Except.ok.injEq] at h
    subst h; exact hm
  | cons kv rest ih =>
    obtain ⟨key, value⟩ := kv
    simp only [aggregate] at h
    cases hs : aggregateStep m key value with
    | error e => simp [hs] at h
    | ok m1 =>
      simp only [hs] at h
      refine ih m1 ?_ h
      rcases aggregateStep_ok m m1 key value hs with h1 | ⟨_, name, _, _, r, _, _, h1⟩
      · subst h1; exact hm
      · subst h1; exact mapSet_keys_nodup m name r hm

/-- A mount point in the intermediate map is empty or the value of a mount-point
fragment of the same name. -/
theorem aggregate_mountPoint (l : List (String × String)) (m : GoMap ChownRequest)
    (h : aggregate [] l = .ok m) :
    ∀ e ∈ m, e.2.MountPoint = "" ∨
      ∃ kv ∈ l, strings.HasPrefix kv.1 annotationPrefix = true ∧
        ∃ rest, keyParts kv.1 = e.1 :: annotationMountPointArg :: rest ∧
          kv.2 = e.2.MountPoint := by
  refine aggregate_forall (fun k r => r.MountPoint = "" ∨
      ∃ kv ∈ l, strings.HasPrefix kv.1 annotationPrefix = true ∧
        ∃ rest, keyParts kv.1 = k :: annotationMountPointArg :: rest ∧
          kv.2 = r.MountPoint) l ?_ [] m (by simp) h
  intro kv hkv hp name arg rest hk r r' hr hd
  have hr' : r.MountPoint = "" ∨
      ∃ kv ∈ l, strings.HasPrefix kv.1 annotationPrefix = true ∧
        ∃ rest, keyParts kv.1 = name :: annotationMountPointArg :: rest ∧
          kv.2 = r.MountPoint := by
    rcases hr with hr | hr
    · subst hr; exact Or.inl rfl
    · exact hr
  rcases dispatch_some r r' arg kv.2 hd with ⟨ha, rfl⟩ | ⟨_, _, _, _, _, _, rfl⟩ | ⟨_, rfl⟩
  · subst ha
    exact Or.inr ⟨kv, hkv, hp, rest, hk, rfl⟩
  · exact hr'
  · exact hr'

/-! ## Reading the result of the second loop -/

theorem foldl_validateStep_get (entries out : GoMap ChownRequest) (r : ChownRequest)
    (hr : passesChecks r)
    (hmem : (∃ k, (k, r) ∈ entries) ∨ mapGet out r.MountPoint = some r)
    (huniq : ∀ e ∈ entries, passesChecks e.2 → e.2.MountPoint = r.MountPoint → e.2 = r) :
    mapGet (entries.foldl (fun out entry => validateStep out entry.2) out) r.MountPoint =
      some r := by
  induction entries generalizing out with
  | nil =>
    rcases hmem with ⟨k, hk⟩ | hout
    · simp at hk
    · exact hout
  | cons hd tl ih =>
    simp only [List.foldl_cons]
    have huniq' : ∀ e ∈ tl, passesChecks e.2 → e.2.MountPoint = r.MountPoint → e.2 = r :=
      fun e he => huniq e (List.mem_cons_of_mem _ he)
    by_cases hhd : hd.2 = r
    · apply ih _ _ huniq'
      right
      rw [validateStep_eq, hhd, if_pos hr, mapGet_mapSet]
      simp
    · apply ih _ _ huniq'
      rcases hmem with ⟨k, hk⟩ | hout
      · rcases List.mem_cons.1 hk with hk' | hk'
        · exact absurd (by rw [← hk']) hhd
        · exact Or.inl ⟨k, hk'⟩
      · right
        rw [validateStep_eq]
        by_cases hpass : passesChecks hd.2
        · have hne : ¬ hd.2.MountPoint = r.MountPoint :=
            fun heq => hhd (huniq hd (List.mem_cons_self _ _) hpass heq)
          rw [if_pos hpass, mapGet_mapSet, if_neg hne]
          exact hout
        · rw [if_neg hpass]
          exact hout

/-- A request that passes the checks and is the only passing one with its mount point
is what the result holds under that mount point. -/
theorem rekey_get (entries : GoMap ChownRequest) (r : ChownRequest) (hr : passesChecks r)
    (hmem : ∃ k, (k, r) ∈ entries)
    (huniq : ∀ e ∈ entries, passesChecks e.2 → e.2.MountPoint = r.MountPoint → e.2 = r) :
    mapGet (rekey entries) r.MountPoint = some r :=
  foldl_validateStep_get entries [] r hr (Or.inl hmem) huniq

/-! ## The fragments of a name among other annotations -/

theorem fragmentOf_belongsTo (name : String) (kv : String × String)
    (h : belongsTo name kv = false) : fragmentOf name kv = none := by
  unfold fragmentOf
  unfold belongsTo at h
  cases hp : strings.HasPrefix kv.1 annotationPrefix with
  | false => simp
  | true =>
    simp only [hp, Bool.true_and, decide_eq_false_iff_not] at h
    simp only [if_true]
    rcases hparts : keyParts kv.1 with _ | ⟨first, _ | ⟨arg, rest⟩⟩
    · rfl
    · rfl
    · simp only [hparts, List.head?_cons, Option.some.injEq] at h
      simp [h]

theorem filterMap_fragmentOf (name : String) (l : List (String × String)) :
    l.filterMap (fragmentOf name) = (l.filter (belongsTo name)).filterMap (fragmentOf name) := by
  induction l with
  | nil => rfl
  | cons kv rest ih =>
    cases hb : belongsTo name kv with
    | false =>
      rw [List.filter_cons_of_neg (by simp [hb]), List.filterMap_cons,
        fragmentOf_belongsTo name kv hb]
      exact ih
    | true =>
      rw [List.filter_cons_of_pos hb, List.filterMap_cons, List.filterMap_cons, ih]

theorem fragmentOf_fragmentKey (name arg value : String) (hn : '.' ∉ name.data)
    (ha : '.' ∉ arg.data) :
    fragmentOf name (fragmentKey name arg, value) = some (arg, value) := by
  unfold fragmentOf
  simp [HasPrefix_fragmentKey, keyParts_fragmentKey_plain name arg hn ha]

/-! ## Keys with a single segment -/

theorem keyParts_short_iff (key : String) :
    (keyParts key).length < 2 ↔ '.' ∉ (sliceFrom key annotationPrefix.length).data := by
  unfold keyParts
  constructor
  · intro h hmem
    obtain ⟨s0, s1, rest, hs, _⟩ := Split_of_mem _ '.' hmem
    rw [hs] at h
    simp only [List.length_cons] at h
    omega
  · intro h
    rw [Split_of_not_mem _ '.' h]
    simp

theorem keyParts_length_pos (key : String) : 1 ≤ (keyParts key).length := by
  unfold keyParts
  rcases h : strings.Split (sliceFrom key annotationPrefix.length) '.' with _ | ⟨a, l⟩
  · exact absurd h (Split_ne_nil _ _)
  · simp

theorem aggregateStep_error (m : GoMap ChownRequest) (key value : String) (e : Fault)
    (h : aggregateStep m key value = .error e) :
    strings.HasPrefix key annotationPrefix = true ∧ (keyParts key).length < 2 ∧
      e = Fault.indexOutOfRange 1 1 := by
  cases hp : strings.HasPrefix key annotationPrefix with
  | false =>
    rw [aggregateStep_of_not_namespaced m key value hp] at h
    cases h
  | true =>
    by_cases hlen : (keyParts key).length < 2
    · rw [aggregateStep_of_short m key value hp hlen] at h
      have h1 := keyParts_length_pos key
      have hone : (keyParts key).length = 1 := by omega
      rw [hone] at h
      simp only [Except.error.injEq] at h
      exact ⟨rfl, hlen, h.symm⟩
    · rcases hparts : keyParts key with _ | ⟨name, _ | ⟨arg, rest⟩⟩
      · rw [hparts] at hlen; simp at hlen
      · rw [hparts] at hlen; simp at hlen
      · rw [aggregateStep_of_parts m key value name arg rest hp hparts] at h
        cases h

/-- The first loop panics when some namespaced key has a single segment. -/
theorem aggregate_error_of_short (l : List (String × String))
    (h : ∃ kv ∈ l, strings.HasPrefix kv.1 annotationPrefix = true ∧
      (keyParts kv.1).length < 2) (m : GoMap ChownRequest) :
    aggregate m l = .error (Fault.indexOutOfRange 1 1) := by
  induction l generalizing m with
  | nil =>
    obtain ⟨kv, hkv, _⟩ := h
    simp at hkv
  | cons hd tl ih =>
    obtain ⟨key, value⟩ := hd
    simp only [aggregate]
    cases hs : aggregateStep m key value with
    | error e =>
      obtain ⟨_, _, he⟩ := aggregateStep_error m key value e hs
      rw [he]
    | ok m1 =>
      simp only
      apply ih
      obtain ⟨kv, hkv, hp, hlen⟩ := h
      rcases List.mem_cons.1 hkv with hkv' | hkv'
      · subst hkv'
        rw [aggregateStep_of_short m key value hp hlen] at hs
        cases hs
      · exact ⟨kv, hkv', hp, hlen⟩

theorem aggregate_error (l : List (String × String)) (m : GoMap ChownRequest) (e : Fault)
    (h : aggregate m l = .error e) :
    e = Fault.indexOutOfRange 1 1 ∧
      ∃ kv ∈ l, strings.HasPrefix kv.1 annotationPrefix = true ∧
        (keyParts kv.1).length < 2 := by
  induction l generalizing m with
  | nil => simp [aggregate] at h
  | cons hd tl ih =>
    obtain ⟨key, value⟩ := hd
    simp only [aggregate] at h
    cases hs : aggregateStep m key value with
    | error e' =>
      simp only [hs, Except.error.injEq] at h
      subst h
      obtain ⟨hp, hlen, he⟩ := aggregateStep_error m key value e' hs
      exact ⟨he, (key, value), List.mem_cons_self _ _, hp, hlen⟩
    | ok m1 =>
      simp only [hs] at h
      obtain ⟨he, kv, hkv, hp, hlen⟩ := ih m1 h
      exact ⟨he, kv, List.mem_cons_of_mem _ hkv, hp, hlen⟩

/-! ## Sequencing the first loop -/

theorem aggregate_append (a b : List (String × String)) (m : GoMap ChownRequest) :
    aggregate m (a ++ b) =
      match aggregate m a with
      | .error e => .error e
      | .ok m1 => aggregate m1 b := by
  induction a generalizing m with
  | nil => rfl
  | cons hd tl ih =>
    obtain ⟨key, value⟩ := hd
    simp only [List.cons_append, aggregate]
    cases aggregateStep m key value with
    | error e => rfl
    | ok m1 => exact ih m1

theorem append_first_two {α : Type} (xs ys zs : List α) (hx : xs ≠ []) (hy : ys ≠ []) :
    ∃ x y r1 r2, xs ++ ys = x :: y :: r1 ∧ xs ++ ys ++ zs = x :: y :: r2 := by
  rcases xs with _ | ⟨x, _ | ⟨x', xs'⟩⟩
  · exact absurd rfl hx
  · rcases ys with _ | ⟨y, ys'⟩
    · exact absurd rfl hy
    · exact ⟨x, y, ys', ys' ++ zs, rfl, rfl⟩
  · exact ⟨x, x', xs' ++ ys, xs' ++ ys ++ zs, rfl, by simp⟩

theorem keyParts_append (x : String) :
    keyParts (annotationPrefix ++ x) = strings.Split x '.' := by
  unfold keyParts
  rw [sliceFrom_append]

theorem validateStep_eq_spec (out : GoMap ChownRequest) (r : ChownRequest)
    (h : (r.User = -1 ∧ r.Group = -1) ∨ (0 ≤ r.User ∧ 0 ≤ r.Group)) :
    validateStep out r = validateStepSpec out r := by
  rw [validateStep_eq]
  unfold validateStepSpec
  have hiff : (r.User = -1 ∨ r.Group = -1) ↔ ¬ (r.User ≥ 0 ∧ r.Group ≥ 0) := by
    rcases h with ⟨hu, hg⟩ | ⟨hu, hg⟩
    · constructor
      · intro _ hpos; omega
      · intro _; exact Or.inl hu
    · constructor
      · intro hneg; omega
      · intro hneg; exact absurd ⟨hu, hg⟩ hneg
  by_cases hpass : passesChecks r
  · obtain ⟨h1, h2, h3⟩ := hpass
    rw [if_pos ⟨h1, h2, h3⟩, if_neg h1, if_neg (fun hn => h2 (hiff.2 hn)),
      if_neg (fun hn => hn h3)]
  · rw [if_neg hpass]
    split_ifs with h1 h2 h3
    all_goals first
      | rfl
      | exact absurd ⟨h1, fun hn => (hiff.1 hn) h2, h3⟩ hpass

theorem order_nil (ord : RangeOrder) : ord.order [] = [] :=
  List.Perm.eq_nil (ord.perm [])

theorem foldl_validateStep_eq_spec (entries out : GoMap ChownRequest)
    (h : ∀ e ∈ entries, (e.2.User = -1 ∧ e.2.Group = -1) ∨ (0 ≤ e.2.User ∧ 0 ≤ e.2.Group)) :
    entries.foldl (fun out entry => validateStep out entry.2) out =
      entries.foldl (fun out entry => validateStepSpec out entry.2) out := by
  induction entries generalizing out with
  | nil => rfl
  | cons hd tl ih =>
    simp only [List.foldl_cons]
    rw [validateStep_eq_spec out hd.2 (h hd (List.mem_cons_self _ _))]
    exact ih _ (fun e he => h e (List.mem_cons_of_mem _ he))

/-! ## A name with a mount point and an owner -/

theorem acceptedOwner_of_parse (o : String) (u g : Int) (ho : parseOwner o = (u, g, none))
    (hu : 0 ≤ u) (hg : 0 ≤ g) : acceptedOwner o = some (u, g) := by
  unfold acceptedOwner
  rw [ho]
  have h1 : ¬ (u < 0 ∨ g < 0) := by omega
  simp [h1]

theorem aggregate_pair (name v1 v2 : String) (hn : '.' ∉ name.data)
    (l : List (String × String))
    (hl : l.Perm [(annotationPrefix ++ name ++ ".mount-point", v1),
      (annotationPrefix ++ name ++ ".owner", v2)]) :
    aggregate [] l = .ok [(name,
      { Name := name, MountPoint := v1, User := ((acceptedOwner v2).getD (-1, -1)).1,
        Group := ((acceptedOwner v2).getD (-1, -1)).2, Policy := "" })] := by
  rw [(key_eq_fragmentKey name).1, (key_eq_fragmentKey name).2.1] at hl
  have hm : '.' ∉ annotationMountPointArg.data := by decide
  have ho : '.' ∉ annotationOwnerArg.data := by decide
  rcases perm_two_cases hl with h | h <;>
  · subst h
    cases hacc : acceptedOwner v2 <;>
    simp [aggregate, aggregateStep_fragmentKey, hn, hm, ho, dispatch_mountPoint,
      dispatch_owner_eq, hacc, fetchRequest, mapGet, mapSet]

/-! ## Where the fields of an assembled request come from -/

/-- Every entry of the intermediate map is stored under the name of a namespaced key,
carries that name, and has each field either at its initial value or set by a fragment
of that name and of the field's kind. -/
theorem aggregate_sources (l : List (String × String)) (m : GoMap ChownRequest)
    (h : aggregate [] l = .ok m) :
    ∀ e ∈ m,
      (∃ kv ∈ l, strings.HasPrefix kv.1 annotationPrefix = true ∧
        (keyParts kv.1).head? = some e.1) ∧
      ((e.2.User = -1 ∧ e.2.Group = -1) ∨
        ∃ kv ∈ l, strings.HasPrefix kv.1 annotationPrefix = true ∧
          ∃ rest, keyParts kv.1 = e.1 :: annotationOwnerArg :: rest ∧
            parseOwner kv.2 = (e.2.User, e.2.Group, none)) ∧
      (e.2.Policy = "" ∨
        ∃ kv ∈ l, strings.HasPrefix kv.1 annotationPrefix = true ∧
          ∃ rest, keyParts kv.1 = e.1 :: annotationPolicyArg :: rest ∧
            kv.2 = e.2.Policy) := by
  refine aggregate_forall (fun k r =>
      (∃ kv ∈ l, strings.HasPrefix kv.1 annotationPrefix = true ∧
        (keyParts kv.1).head? = some k) ∧
      ((r.User = -1 ∧ r.Group = -1) ∨
        ∃ kv ∈ l, strings.HasPrefix kv.1 annotationPrefix = true ∧
          ∃ rest, keyParts kv.1 = k :: annotationOwnerArg :: rest ∧
            parseOwner kv.2 = (r.User, r.Group, none)) ∧
      (r.Policy = "" ∨
        ∃ kv ∈ l, strings.HasPrefix kv.1 annotationPrefix = true ∧
          ∃ rest, keyParts kv.1 = k :: annotationPolicyArg :: rest ∧
            kv.2 = r.Policy)) l ?_ [] m (by simp) h
  intro kv hkv hp name arg rest hk r r' hr hd
  have hname : ∃ kv ∈ l, strings.HasPrefix kv.1 annotationPrefix = true ∧
      (keyParts kv.1).head? = some name := ⟨kv, hkv, hp, by rw [hk]; rfl⟩
  have hr' : ((r.User = -1 ∧ r.Group = -1) ∨
        ∃ kv ∈ l, strings.HasPrefix kv.1 annotationPrefix = true ∧
          ∃ rest, keyParts kv.1 = name :: annotationOwnerArg :: rest ∧
            parseOwner kv.2 = (r.User, r.Group, none)) ∧
      (r.Policy = "" ∨
        ∃ kv ∈ l, strings.HasPrefix kv.1 annotationPrefix = true ∧
          ∃ rest, keyParts kv.1 = name :: annotationPolicyArg :: rest ∧
            kv.2 = r.Policy) := by
    rcases hr with hr | hr
    · subst hr; exact ⟨Or.inl ⟨rfl, rfl⟩, Or.inl rfl⟩
    · exact hr.2
  rcases dispatch_some r r' arg kv.2 hd with
    ⟨_, rfl⟩ | ⟨ha, uid, gid, hpo, _, _, rfl⟩ | ⟨ha, rfl⟩
  · exact ⟨hname, hr'⟩
  · subst ha
    exact ⟨hname, Or.inr ⟨kv, hkv, hp, rest, hk, hpo⟩, hr'.2⟩
  · subst ha
    exact ⟨hname, hr'.1, Or.inr ⟨kv, hkv, hp, rest, hk, rfl⟩⟩

theorem mem_namesOf (l : List (String × String)) (k : String) :
    k ∈ namesOf l ↔ ∃ kv ∈ l, strings.HasPrefix kv.1 annotationPrefix = true ∧
      (keyParts kv.1).head? = some k := by
  unfold namesOf
  rw [List.mem_dedup, List.mem_filterMap]
  constructor
  · rintro ⟨kv, hkv, hhead⟩
    rw [List.mem_filter] at hkv
    exact ⟨kv, hkv.1, hkv.2, hhead⟩
  · rintro ⟨kv, hkv, hp, hhead⟩
    exact ⟨kv, List.mem_filter.2 ⟨hkv, hp⟩, hhead⟩

theorem mapSet_length_le {α : Type} (m : GoMap α) (k : String) (v : α) :
    (mapSet m k v).length ≤ m.length + 1 := by
  induction m with
  | nil => simp [mapSet]
  | cons hd tl ih =>
    obtain ⟨k0, v0⟩ := hd
    by_cases h0 : k0 = k
    · simp [mapSet, h0]
    · simp only [mapSet, h0, if_false, List.length_cons]
      omega

theorem foldl_validateStep_length (entries out : GoMap ChownRequest) :
    (entries.foldl (fun out entry => validateStep out entry.2) out).length ≤
      out.length + entries.length := by
  induction entries generalizing out with
  | nil => simp
  | cons hd tl ih =>
    simp only [List.foldl_cons, List.length_cons]
    have h1 := ih (validateStep out hd.2)
    have h2 : (validateStep out hd.2).length ≤ out.length + 1 := by
      rw [validateStep_eq]
      split_ifs
      · exact mapSet_length_le _ _ _
      · omega
    omega

theorem rekey_length_le (entries : GoMap ChownRequest) :
    (rekey entries).length ≤ entries.length := by
  have := foldl_validateStep_length entries []
  simpa [rekey] using this

/-! ## Two names -/

/-- The request that a name with exactly a mount point, an owner and possibly a policy
assembles, whatever other names the input holds. -/
theorem aggregate_get_of_holdsRequest (l : List (String × String)) (m : GoMap ChownRequest)
    (n p o q : String) (u g : Int) (hn : '.' ∉ n.data)
    (ho : parseOwner o = (u, g, none)) (hu : 0 ≤ u) (hg : 0 ≤ g)
    (hkeys : holdsRequest l n p o q) (hm : aggregate [] l = .ok m) :
    mapGet m n = some { Name := n, MountPoint := p, User := u, Group := g, Policy := q } := by
  have hacc := acceptedOwner_of_parse o u g ho hu hg
  have hdm : '.' ∉ annotationMountPointArg.data := by decide
  have hdo : '.' ∉ annotationOwnerArg.data := by decide
  have hdp : '.' ∉ annotationPolicyArg.data := by decide
  rw [aggregate_get l [] m n hm, filterMap_fragmentOf]
  unfold holdsRequest at hkeys
  rw [tripleOf_eq, (key_eq_fragmentKey n).1, (key_eq_fragmentKey n).2.1] at hkeys
  rcases hkeys with ⟨hperm, hq0⟩ | hperm
  · subst hq0
    have hfm := List.Perm.filterMap (fragmentOf n) hperm
    simp only [List.filterMap_cons, List.filterMap_nil,
      fragmentOf_fragmentKey n _ _ hn hdm, fragmentOf_fragmentKey n _ _ hn hdo] at hfm
    rcases perm_two_cases hfm with h | h <;>
    · rw [h]
      simp [assemble, dispatch_mountPoint, dispatch_owner_eq, hacc, freshRequest, mapGet]
  · have hfm := List.Perm.filterMap (fragmentOf n) hperm
    simp only [List.filterMap_cons, List.filterMap_nil,
      fragmentOf_fragmentKey n _ _ hn hdm, fragmentOf_fragmentKey n _ _ hn hdo,
      fragmentOf_fragmentKey n _ _ hn hdp] at hfm
    rcases perm_three_cases hfm with h | h | h | h | h | h <;>
    · rw [h]
      simp [assemble, dispatch_mountPoint, dispatch_owner_eq, dispatch_policy, hacc,
        freshRequest, mapGet]

theorem holdsRequest_keyParts (l : List (String × String)) (n p o q : String)
    (hn : '.' ∉ n.data) (hkeys : holdsRequest l n p o q) (kv : String × String)
    (hkv : kv ∈ l) (hb : belongsTo n kv = true) : (keyParts kv.1).length = 2 := by
  have hdm : '.' ∉ annotationMountPointArg.data := by decide
  have hdo : '.' ∉ annotationOwnerArg.data := by decide
  have hdp : '.' ∉ annotationPolicyArg.data := by decide
  have hmem : kv ∈ l.filter (belongsTo n) := List.mem_filter.2 ⟨hkv, hb⟩
  unfold holdsRequest at hkeys
  rw [tripleOf_eq, (key_eq_fragmentKey n).1, (key_eq_fragmentKey n).2.1] at hkeys
  rcases hkeys with ⟨hperm, _⟩ | hperm
  · have := hperm.subset hmem
    simp only [List.mem_cons, List.mem_singleton, List.not_mem_nil, or_false] at this
    rcases this with rfl | rfl
    · simp [keyParts_fragmentKey_plain n _ hn hdm]
    · simp [keyParts_fragmentKey_plain n _ hn hdo]
  · have := hperm.subset hmem
    simp only [List.mem_cons, List.mem_singleton, List.not_mem_nil, or_false] at this
    rcases this with rfl | rfl | rfl
    · simp [keyParts_fragmentKey_plain n _ hn hdm]
    · simp [keyParts_fragmentKey_plain n _ hn hdo]
    · simp [keyParts_fragmentKey_plain n _ hn hdp]

theorem keys_nodup_nodup {α : Type} (m : GoMap α) (h : (m.map Prod.fst).Nodup) : m.Nodup :=
  List.Nodup.of_map Prod.fst h

/-- Maps with one entry per key and the same reads hold the same entries. -/
theorem perm_of_mapGet_eq {α : Type} (m1 m2 : GoMap α)
    (h1 : (m1.map Prod.fst).Nodup) (h2 : (m2.map Prod.fst).Nodup)
    (h : ∀ k, mapGet m1 k = mapGet m2 k) : m1.Perm m2 := by
  rw [List.perm_ext_iff_of_nodup (keys_nodup_nodup m1 h1) (keys_nodup_nodup m2 h2)]
  intro e
  constructor
  · intro he
    have := mapGet_of_mem m1 e.1 e.2 h1 he
    rw [h] at this
    exact mem_of_mapGet m2 e.1 e.2 this
  · intro he
    have := mapGet_of_mem m2 e.1 e.2 h2 he
    rw [← h] at this
    exact mem_of_mapGet m1 e.1 e.2 this

theorem mapGet_pair {α : Type} (n1 n2 k : String) (r1 r2 : α) :
    mapGet [(n1, r1), (n2, r2)] k =
      if n1 = k then some r1 else if n2 = k then some r2 else none := by
  simp [mapGet]

/-! ## Fragments of different kinds commute -/

/-- How a dispatch on a given argument kind and value acts, uniformly in the request. -/
theorem dispatch_form (arg value : String) :
    (∀ r, dispatch r arg value = none) ∨
    (arg = annotationMountPointArg ∧
      ∀ r, dispatch r arg value = some { r with MountPoint := value }) ∨
    (arg = annotationOwnerArg ∧ ∃ u g,
      ∀ r, dispatch r arg value = some { r with User := u, Group := g }) ∨
    (arg = annotationPolicyArg ∧
      ∀ r, dispatch r arg value = some { r with Policy := value }) := by
  by_cases h1 : arg = annotationMountPointArg
  · subst h1
    exact Or.inr (Or.inl ⟨rfl, fun r => dispatch_mountPoint r value⟩)
  · by_cases h2 : arg = annotationOwnerArg
    · subst h2
      cases hacc : acceptedOwner value with
      | none =>
        left; intro r
        rw [dispatch_owner_eq, hacc]; rfl
      | some ug =>
        right; right; left
        refine ⟨rfl, ug.1, ug.2, fun r => ?_⟩
        rw [dispatch_owner_eq, hacc]; rfl
    · by_cases h3 : arg = annotationPolicyArg
      · subst h3
        exact Or.inr (Or.inr (Or.inr ⟨rfl, fun r => dispatch_policy r value⟩))
      · left; intro r
        unfold dispatch
        rw [if_neg h1, if_neg h2, if_neg h3]

theorem assemble_swap (name : String) (r : Option ChownRequest) (x y : String × String)
    (hxy : x.1 ≠ y.1) : assemble name r [x, y] = assemble name r [y, x] := by
  obtain ⟨a1, v1⟩ := x
  obtain ⟨a2, v2⟩ := y
  simp only at hxy
  have hmo : annotationMountPointArg ≠ annotationOwnerArg := by decide
  have hmp : annotationMountPointArg ≠ annotationPolicyArg := by decide
  have hop : annotationOwnerArg ≠ annotationPolicyArg := by decide
  rcases dispatch_form a1 v1 with h1 | ⟨e1, h1⟩ | ⟨e1, u1, g1, h1⟩ | ⟨e1, h1⟩ <;>
  rcases dispatch_form a2 v2 with h2 | ⟨e2, h2⟩ | ⟨e2, u2, g2, h2⟩ | ⟨e2, h2⟩ <;>
  first
    | (exfalso; exact hxy (e1.trans e2.symm))
    | (cases r <;> simp [assemble, h1, h2])

/-- Fragments of pairwise different kinds assemble the same request in every order. -/
theorem assemble_perm (name : String) (xs ys : List (String × String)) (h : xs.Perm ys)
    (hd : xs.Pairwise (fun a b => a.1 ≠ b.1)) (r : Option ChownRequest) :
    assemble name r xs = assemble name r ys := by
  induction h generalizing r with
  | nil => rfl
  | cons x _ ih =>
    obtain ⟨arg, value⟩ := x
    have hd' := (List.pairwise_cons.1 hd).2
    simp only [assemble]
    cases dispatch (r.getD (freshRequest name)) arg value <;> exact ih hd' _
  | swap x y l =>
    have hxy : y.1 ≠ x.1 := (List.pairwise_cons.1 hd).1 x (List.mem_cons_self _ _)
    have e1 : y :: x :: l = [y, x] ++ l := rfl
    have e2 : x :: y :: l = [x, y] ++ l := rfl
    rw [e1, e2, assemble_append, assemble_append, assemble_swap name r y x hxy]
  | trans h1 _ ih1 ih2 =>
    have hd2 := h1.pairwise hd (fun hab => Ne.symm hab)
    rw [ih1 hd r, ih2 hd2 r]

theorem fragmentOf_some (name : String) (kv : String × String) (f : String × String)
    (h : fragmentOf name kv = some f) :
    strings.HasPrefix kv.1 annotationPrefix = true ∧
      ∃ rest, keyParts kv.1 = name :: f.1 :: rest := by
  unfold fragmentOf at h
  cases hp : strings.HasPrefix kv.1 annotationPrefix with
  | false => simp [hp] at h
  | true =>
    simp only [hp, if_true] at h
    rcases hparts : keyParts kv.1 with _ | ⟨first, _ | ⟨arg, rest⟩⟩
    · simp [hparts] at h
    · simp [hparts] at h
    · simp only [hparts] at h
      by_cases hn : first = name
      · simp only [hn, if_true, Option.some.injEq] at h
        subst h; subst hn
        exact ⟨rfl, rest, rfl⟩
      · simp [hn] at h

/-! ## The result as a function of the entries that pass -/

theorem foldl_validateStep_keys_nodup (entries out : GoMap ChownRequest)
    (h : (out.map Prod.fst).Nodup) :
    ((entries.foldl (fun out entry => validateStep out entry.2) out).map Prod.fst).Nodup := by
  induction entries generalizing out with
  | nil => exact h
  | cons hd tl ih =>
    simp only [List.foldl_cons]
    apply ih
    rw [validateStep_eq]
    split_ifs
    · exact mapSet_keys_nodup _ _ _ h
    · exact h

theorem rekey_keys_nodup (entries : GoMap ChownRequest) :
    ((rekey entries).map Prod.fst).Nodup :=
  foldl_validateStep_keys_nodup entries [] (by simp)

/-- When no two passing entries share a mount point, the result holds `r` under `k`
exactly when `r` is a passing entry with mount point `k`. -/
theorem rekey_get_iff (entries : GoMap ChownRequest)
    (huniq : ∀ e ∈ entries, ∀ e' ∈ entries, passesChecks e.2 → passesChecks e'.2 →
      e.2.MountPoint = e'.2.MountPoint → e.2 = e'.2)
    (k : String) (r : ChownRequest) :
    mapGet (rekey entries) k = some r ↔
      (∃ key, (key, r) ∈ entries) ∧ passesChecks r ∧ r.MountPoint = k := by
  constructor
  · intro h
    obtain ⟨e', he', h2, hk, hpass⟩ := rekey_mem _ _ (mem_of_mapGet _ k r h)
    simp only at h2 hk hpass
    refine ⟨⟨e'.1, ?_⟩, hpass, hk.symm⟩
    rw [h2]; exact he'
  · rintro ⟨⟨key, hmem⟩, hpass, hk⟩
    rw [← hk]
    exact rekey_get entries r hpass ⟨key, hmem⟩
      (fun e he hpe hmp => huniq e he (key, r) hmem hpe hpass hmp)

theorem rekey_perm (es1 es2 : GoMap ChownRequest) (h : es1.Perm es2)
    (huniq : ∀ e ∈ es1, ∀ e' ∈ es1, passesChecks e.2 → passesChecks e'.2 →
      e.2.MountPoint = e'.2.MountPoint → e.2 = e'.2) (k : String) :
    mapGet (rekey es1) k = mapGet (rekey es2) k := by
  have huniq2 : ∀ e ∈ es2, ∀ e' ∈ es2, passesChecks e.2 → passesChecks e'.2 →
      e.2.MountPoint = e'.2.MountPoint → e.2 = e'.2 :=
    fun e he e' he' => huniq e (h.symm.subset he) e' (h.symm.subset he')
  apply Option.ext
  intro r
  simp only [Option.mem_def]
  rw [rekey_get_iff es1 huniq k r, rekey_get_iff es2 huniq2 k r]
  constructor
  · rintro ⟨⟨key, hmem⟩, hrest⟩
    exact ⟨⟨key, h.subset hmem⟩, hrest⟩
  · rintro ⟨⟨key, hmem⟩, hrest⟩
    exact ⟨⟨key, h.symm.subset hmem⟩, hrest⟩

/-! # The claims -/

/-- C1 (fails on the code): on the one-entry mapping whose key is the namespace
followed by the single segment `data`, `parseChownRequests` does not return a result
mapping: line 62 reads `parts[1]` of a one-element slice and the call panics, for every
value and every iteration order. -/
theorem parseChownRequests_panics_on_one_segment_key (ord : RangeOrder) (value : String) :
    parseChownRequests ord
      [("com.launchplatform.oci-hooks.mount-chown.data", value)] =
      .error (Fault.indexOutOfRange 1 1) := by
  rfl

/-- C2: every request in a result mapping returned by `parseChownRequests` is
eligible: its mount point is not empty, its user and group are not negative, and its
policy is empty, `recursive` or `root-only`. -/
theorem parseChownRequests_result_eligible (ord : RangeOrder)
    (annotations : List (String × String)) (result : GoMap ChownRequest)
    (h : parseChownRequests ord annotations = .ok result) :
    ∀ k r, (k, r) ∈ result →
      r.MountPoint ≠ "" ∧ 0 ≤ r.User ∧ 0 ≤ r.Group ∧
        (r.Policy = "" ∨ r.Policy = "recursive" ∨ r.Policy = "root-only") := by
  intro k r hr
  unfold parseChownRequests at h
  cases ha : aggregate [] annotations with
  | error e => simp [ha] at h
  | ok requests =>
    simp only [ha, Except.ok.injEq] at h
    subst h
    obtain ⟨e', he', h2, -, hmp, hown, hpol⟩ := rekey_mem _ _ hr
    have he'' : e' ∈ requests := (ord.perm requests).subset he'
    have hinv := aggregate_owner annotations requests ha e' he''
    simp only at h2
    rw [← h2] at hinv
    refine ⟨hmp, ?_, ?_, hpol⟩
    · rcases hinv with ⟨hu, _⟩ | ⟨hu, _⟩
      · exact absurd (Or.inl hu) hown
      · exact hu
    · rcases hinv with ⟨_, hg⟩ | ⟨_, hg⟩
      · exact absurd (Or.inr hg) hown
      · exact hg

/-- C2 at the sample annotation set. -/
theorem parseChownRequests_result_eligible_witness :
    parseChownRequests RangeOrder.insertion sampleAnnotations =
        .ok [("/data", sampleRequest)] ∧
      ∀ k r, (k, r) ∈ [("/data", sampleRequest)] →
        r.MountPoint ≠ "" ∧ 0 ≤ r.User ∧ 0 ≤ r.Group ∧
          (r.Policy = "" ∨ r.Policy = "recursive" ∨ r.Policy = "root-only") :=
  ⟨by decide, parseChownRequests_result_eligible RangeOrder.insertion sampleAnnotations _
    (by decide)⟩

/-- C3: round trip. For a name `n` without `'.'`, a non-empty path `p`, an owner string
`o` that `parseOwner` maps to `(u, g)` with `u >= 0` and `g >= 0`, and a policy `q` that
is `recursive` or `root-only`, the mapping with exactly the three keys
`<namespace>n.mount-point = p`, `<namespace>n.owner = o`, `<namespace>n.policy = q`, in
whatever order it is iterated, gives a result with exactly one entry: key `p`, value
`{Name: n, MountPoint: p, User: u, Group: g, Policy: q}`. -/
theorem parseChownRequests_round_trip (ord : RangeOrder) (n p o q : String) (u g : Int)
    (annotations : List (String × String))
    (hn : '.' ∉ n.data) (hp : p ≠ "") (ho : parseOwner o = (u, g, none))
    (hu : 0 ≤ u) (hg : 0 ≤ g) (hq : q = "recursive" ∨ q = "root-only")
    (hl : annotations.Perm
      [(annotationPrefix ++ n ++ ".mount-point", p),
       (annotationPrefix ++ n ++ ".owner", o),
       (annotationPrefix ++ n ++ ".policy", q)]) :
    parseChownRequests ord annotations =
      .ok [(p, { Name := n, MountPoint := p, User := u, Group := g, Policy := q })] := by
  have hagg := aggregate_tripleOf n p o q hn annotations hl
  have hacc : acceptedOwner o = some (u, g) := by
    unfold acceptedOwner
    rw [ho]
    have h1 : ¬ (u < 0 ∨ g < 0) := by omega
    simp [h1]
  rw [hacc] at hagg
  unfold parseChownRequests
  simp only [hagg, order_singleton, rekey_singleton, Option.getD_some, Except.ok.injEq]
  have hpass : passesChecks
      { Name := n, MountPoint := p, User := u, Group := g, Policy := q } := by
    refine ⟨hp, ?_, ?_⟩
    · show ¬ (u = -1 ∨ g = -1)
      omega
    · exact Or.inr hq
  rw [if_pos hpass]

/-- C3 at name `data`, path `/data`, owner `1000:1000`, policy `recursive`, with the
keys met in the order policy, mount-point, owner. -/
theorem parseChownRequests_round_trip_witness :
    parseChownRequests RangeOrder.reversed
        [(annotationPrefix ++ "data" ++ ".policy", "recursive"),
         (annotationPrefix ++ "data" ++ ".mount-point", "/data"),
         (annotationPrefix ++ "data" ++ ".owner", "1000:1000")] =
      .ok [("/data", sampleRequest)] :=
  parseChownRequests_round_trip RangeOrder.reversed "data" "/data" "1000:1000" "recursive"
    1000 1000 _ (by decide) (by decide) (by decide) (by decide) (by decide)
    (Or.inl rfl)
    (@List.perm_append_comm _ [(annotationPrefix ++ "data" ++ ".policy", "recursive")] _)

/-- C4: bad requests are dropped independently. Let every namespaced key of the input
have at least two segments after the namespace. If the fragments of a name `n` without
`'.'` are exactly `n.mount-point = p` with `p` non-empty, `n.owner = o` with
`parseOwner o = (u, g)`, `u >= 0`, `g >= 0`, and possibly `n.policy = q` with `q` empty,
`recursive` or `root-only` (`q` is empty when the policy key is absent), and no
mount-point fragment of another name has the value `p`, then `parseChownRequests`
returns and the result maps `p` to `{Name: n, MountPoint: p, User: u, Group: g,
Policy: q}`, whatever the other names hold and whatever the iteration orders. -/
theorem parseChownRequests_keeps_valid_request (ord : RangeOrder)
    (annotations : List (String × String)) (n p o q : String) (u g : Int)
    (htwo : ∀ kv ∈ annotations, strings.HasPrefix kv.1 annotationPrefix = true →
      2 ≤ (keyParts kv.1).length)
    (hn : '.' ∉ n.data) (hp : p ≠ "") (ho : parseOwner o = (u, g, none))
    (hu : 0 ≤ u) (hg : 0 ≤ g) (hq : q = "" ∨ q = "recursive" ∨ q = "root-only")
    (hkeys :
      ((annotations.filter (belongsTo n)).Perm
          [(annotationPrefix ++ n ++ ".mount-point", p),
           (annotationPrefix ++ n ++ ".owner", o)] ∧ q = "") ∨
        (annotations.filter (belongsTo n)).Perm
          [(annotationPrefix ++ n ++ ".mount-point", p),
           (annotationPrefix ++ n ++ ".owner", o),
           (annotationPrefix ++ n ++ ".policy", q)])
    (hother : ∀ kv ∈ annotations, strings.HasPrefix kv.1 annotationPrefix = true →
      ∀ name rest, keyParts kv.1 = name :: "mount-point" :: rest → name ≠ n → kv.2 ≠ p) :
    ∃ result, parseChownRequests ord annotations = .ok result ∧
      mapGet result p =
        some { Name := n, MountPoint := p, User := u, Group := g, Policy := q } := by
  obtain ⟨m, hm⟩ := aggregate_total annotations htwo []
  have hacc : acceptedOwner o = some (u, g) := by
    unfold acceptedOwner
    rw [ho]
    have h1 : ¬ (u < 0 ∨ g < 0) := by omega
    simp [h1]
  have hdm : '.' ∉ annotationMountPointArg.data := by decide
  have hdo : '.' ∉ annotationOwnerArg.data := by decide
  have hdp : '.' ∉ annotationPolicyArg.data := by decide
  -- the request assembled for `n`
  have hget : mapGet m n =
      some { Name := n, MountPoint := p, User := u, Group := g, Policy := q } := by
    rw [aggregate_get annotations [] m n hm, filterMap_fragmentOf]
    rw [(key_eq_fragmentKey n).1, (key_eq_fragmentKey n).2.1,
      (key_eq_fragmentKey n).2.2] at hkeys
    rcases hkeys with ⟨hperm, hq0⟩ | hperm
    · subst hq0
      have hfm := List.Perm.filterMap (fragmentOf n) hperm
      simp only [List.filterMap_cons, List.filterMap_nil,
        fragmentOf_fragmentKey n _ _ hn hdm, fragmentOf_fragmentKey n _ _ hn hdo] at hfm
      rcases perm_two_cases hfm with h | h <;>
      · rw [h]
        simp [assemble, dispatch_mountPoint, dispatch_owner_eq, hacc, freshRequest, mapGet]
    · have hfm := List.Perm.filterMap (fragmentOf n) hperm
      simp only [List.filterMap_cons, List.filterMap_nil,
        fragmentOf_fragmentKey n _ _ hn hdm, fragmentOf_fragmentKey n _ _ hn hdo,
        fragmentOf_fragmentKey n _ _ hn hdp] at hfm
      rcases perm_three_cases hfm with h | h | h | h | h | h <;>
      · rw [h]
        simp [assemble, dispatch_mountPoint, dispatch_owner_eq, dispatch_policy, hacc,
          freshRequest, mapGet]
  have hpass : passesChecks
      { Name := n, MountPoint := p, User := u, Group := g, Policy := q } := by
    refine ⟨hp, ?_, hq⟩
    show ¬ (u = -1 ∨ g = -1)
    omega
  have hnd : (m.map Prod.fst).Nodup := aggregate_keys_nodup annotations [] m (by simp) hm
  refine ⟨rekey (ord.order m), by unfold parseChownRequests; rw [hm], ?_⟩
  refine rekey_get (ord.order m)
    { Name := n, MountPoint := p, User := u, Group := g, Policy := q } hpass
    ⟨n, (ord.perm m).symm.subset (mem_of_mapGet m n _ hget)⟩ ?_
  intro e he _ hmp
  have he' : e ∈ m := (ord.perm m).subset he
  by_cases hname : e.1 = n
  · have h1 := mapGet_of_mem m e.1 e.2 hnd he'
    rw [hname, hget] at h1
    exact (Option.some.inj h1).symm
  · exfalso
    rcases aggregate_mountPoint annotations m hm e he' with hempty | ⟨kv, hkv, hpre, rest, hk, hv⟩
    · exact hp (by rw [← hempty]; exact hmp.symm)
    · exact hother kv hkv hpre e.1 rest hk hname (by rw [hv]; exact hmp)

/-- C4 at the request `data` of `mixedAnnotations`, which has no policy key. -/
theorem parseChownRequests_keeps_valid_request_witness :
    ∃ result, parseChownRequests RangeOrder.reversed mixedAnnotations = .ok result ∧
      mapGet result "/data" =
        some { Name := "data", MountPoint := "/data", User := 1000, Group := 1000,
               Policy := "" } :=
  parseChownRequests_keeps_valid_request RangeOrder.reversed mixedAnnotations
    "data" "/data" "1000:1000" "" 1000 1000
    (by decide) (by decide) (by decide) (by decide) (by decide) (by decide) (Or.inl rfl)
    (Or.inl ⟨by
      have h : mixedAnnotations.filter (belongsTo "data") =
          [(annotationPrefix ++ "data" ++ ".owner", "1000:1000"),
           (annotationPrefix ++ "data" ++ ".mount-point", "/data")] := by decide
      rw [h]
      exact List.Perm.swap _ _ _, rfl⟩)
    (by
      intro kv hkv _ name rest hk hname
      simp only [mixedAnnotations, List.mem_cons, List.mem_singleton, List.not_mem_nil,
        or_false] at hkv
      rcases hkv with rfl | rfl | rfl | rfl | rfl | rfl | rfl | rfl
      · decide
      · decide
      · decide
      · decide
      · have h0 : keyParts (annotationPrefix ++ "data" ++ ".mount-point") =
            ["data", "mount-point"] := by decide
        have h1 := h0.symm.trans hk
        simp only [List.cons.injEq] at h1
        exact absurd h1.1.symm hname
      · decide
      · decide
      · decide)

/-- C5: annotations outside the namespace never influence the result. Two annotation
sequences whose namespaced entries are the same (same keys, same values, met in the
same order) give the same outcome, whatever else they hold; in particular the outcome
is that of the sequence restricted to its namespaced entries. -/
theorem parseChownRequests_ignores_unrelated_keys (ord : RangeOrder)
    (a b : List (String × String)) (h : a.filter namespaced = b.filter namespaced) :
    parseChownRequests ord a = parseChownRequests ord b ∧
      parseChownRequests ord a = parseChownRequests ord (a.filter namespaced) := by
  unfold parseChownRequests
  rw [aggregate_filter a, aggregate_filter b, aggregate_filter (a.filter namespaced), h]
  simp

/-- C5 at the sample annotations against the same request among other foreign keys. -/
theorem parseChownRequests_ignores_unrelated_keys_witness :
    parseChownRequests RangeOrder.insertion sampleAnnotations =
        parseChownRequests RangeOrder.insertion
          (("io.kubernetes.cri.sandbox-id", "1:2:3") :: ("", "") ::
            sampleAnnotations.filter namespaced) ∧
      parseChownRequests RangeOrder.insertion sampleAnnotations =
        parseChownRequests RangeOrder.insertion (sampleAnnotations.filter namespaced) :=
  parseChownRequests_ignores_unrelated_keys RangeOrder.insertion sampleAnnotations
    (("io.kubernetes.cri.sandbox-id", "1:2:3") :: ("", "") ::
      sampleAnnotations.filter namespaced) (by decide)

/-- C6: order independence. For every name `n` and every three values, any two of the
six iteration orders of the keys `<namespace>n.mount-point`, `<namespace>n.owner`,
`<namespace>n.policy` leave the same request stored for `n` after the first loop and
give the same final result mapping, whether or not the owner value is accepted. When
`n` holds no `'.'` the whole intermediate mapping is the same. (For a name with a dot
the three keys are read as fragments of the part before the first dot, so nothing is
stored for `n` itself and the result is empty.) -/
theorem parseChownRequests_order_independent (ord1 ord2 : RangeOrder)
    (n v1 v2 v3 : String) (l1 l2 : List (String × String))
    (h1 : l1.Perm (tripleOf n v1 v2 v3)) (h2 : l2.Perm (tripleOf n v1 v2 v3)) :
    (∃ m1 m2, aggregate [] l1 = .ok m1 ∧ aggregate [] l2 = .ok m2 ∧
        mapGet m1 n = mapGet m2 n) ∧
      parseChownRequests ord1 l1 = parseChownRequests ord2 l2 ∧
      ('.' ∉ n.data → aggregate [] l1 = aggregate [] l2) := by
  by_cases hn : '.' ∈ n.data
  · obtain ⟨first, arg, hne, hkeys⟩ := tripleOf_dotted n v1 v2 v3 hn
    have key : ∀ (ord : RangeOrder) (l : List (String × String)),
        l.Perm (tripleOf n v1 v2 v3) →
        (∃ m, aggregate [] l = .ok m ∧ mapGet m n = none) ∧
          parseChownRequests ord l = .ok [] := by
      intro ord l hl
      have hk : ∀ kv ∈ l, strings.HasPrefix kv.1 annotationPrefix = true ∧
          ∃ rest, keyParts kv.1 = first :: arg :: rest :=
        fun kv hkv => hkeys kv (hl.subset hkv)
      have htwo : ∀ kv ∈ l, strings.HasPrefix kv.1 annotationPrefix = true →
          2 ≤ (keyParts kv.1).length := by
        intro kv hkv _
        obtain ⟨_, rest, hparts⟩ := hk kv hkv
        simp [hparts]
      obtain ⟨m, hm⟩ := aggregate_total l htwo []
      refine ⟨⟨m, hm, ?_⟩, ?_⟩
      · rw [aggregate_get l [] m n hm]
        have hnil : l.filterMap (fragmentOf n) = [] := by
          rw [List.filterMap_eq_nil_iff]
          intro kv hkv
          obtain ⟨hp, rest, hparts⟩ := hk kv hkv
          simp [fragmentOf, hp, hparts, hne]
        rw [hnil]
        rfl
      · by_cases harg : arg = annotationOwnerArg
        · apply parseChownRequests_nil_of_no_mountPoint ord l htwo
          intro kv hkv _ name arg' rest hparts
          obtain ⟨_, rest', hparts'⟩ := hk kv hkv
          rw [hparts'] at hparts
          simp only [List.cons.injEq] at hparts
          rw [← hparts.2.1, harg]
          decide
        · apply parseChownRequests_nil_of_no_owner ord l htwo
          intro kv hkv _ name arg' rest hparts
          obtain ⟨_, rest', hparts'⟩ := hk kv hkv
          rw [hparts'] at hparts
          simp only [List.cons.injEq] at hparts
          rw [← hparts.2.1]
          exact harg
    obtain ⟨⟨m1, hm1, hg1⟩, hr1⟩ := key ord1 l1 h1
    obtain ⟨⟨m2, hm2, hg2⟩, hr2⟩ := key ord2 l2 h2
    exact ⟨⟨m1, m2, hm1, hm2, by rw [hg1, hg2]⟩, by rw [hr1, hr2], fun h => absurd hn h⟩
  · have ha1 := aggregate_tripleOf n v1 v2 v3 hn l1 h1
    have ha2 := aggregate_tripleOf n v1 v2 v3 hn l2 h2
    refine ⟨⟨_, _, ha1, ha2, rfl⟩, ?_, fun _ => by rw [ha1, ha2]⟩
    unfold parseChownRequests
    simp only [ha1, ha2, order_singleton]

/-- C6 at name `data` with a rejected owner value, for two of the six orders. -/
theorem parseChownRequests_order_independent_witness :
    (∃ m1 m2,
        aggregate [] [(annotationPrefix ++ "data" ++ ".owner", "abc"),
          (annotationPrefix ++ "data" ++ ".mount-point", "/data"),
          (annotationPrefix ++ "data" ++ ".policy", "recursive")] = .ok m1 ∧
        aggregate [] [(annotationPrefix ++ "data" ++ ".policy", "recursive"),
          (annotationPrefix ++ "data" ++ ".owner", "abc"),
          (annotationPrefix ++ "data" ++ ".mount-point", "/data")] = .ok m2 ∧
        mapGet m1 "data" = mapGet m2 "data") ∧
      parseChownRequests RangeOrder.insertion
          [(annotationPrefix ++ "data" ++ ".owner", "abc"),
           (annotationPrefix ++ "data" ++ ".mount-point", "/data"),
           (annotationPrefix ++ "data" ++ ".policy", "recursive")] =
        parseChownRequests RangeOrder.reversed
          [(annotationPrefix ++ "data" ++ ".policy", "recursive"),
           (annotationPrefix ++ "data" ++ ".owner", "abc"),
           (annotationPrefix ++ "data" ++ ".mount-point", "/data")] ∧
      ('.' ∉ "data".data →
        aggregate [] [(annotationPrefix ++ "data" ++ ".owner", "abc"),
          (annotationPrefix ++ "data" ++ ".mount-point", "/data"),
          (annotationPrefix ++ "data" ++ ".policy", "recursive")] =
        aggregate [] [(annotationPrefix ++ "data" ++ ".policy", "recursive"),
          (annotationPrefix ++ "data" ++ ".owner", "abc"),
          (annotationPrefix ++ "data" ++ ".mount-point", "/data")]) :=
  parseChownRequests_order_independent RangeOrder.insertion RangeOrder.reversed
    "data" "/data" "abc" "recursive" _ _
    (List.Perm.swap _ _ _)
    ((@List.perm_append_comm _
        [(annotationPrefix ++ "data" ++ ".policy", "recursive")] _).trans
      (List.Perm.swap _ _ _))

/-- C7: partial input is dropped, not fatal. When every namespaced key of the input is
a mount-point or a policy fragment (so none has the argument kind `owner`),
`parseChownRequests` returns, and the result mapping is empty. -/
theorem parseChownRequests_without_owner_is_empty (ord : RangeOrder)
    (annotations : List (String × String))
    (h : ∀ kv ∈ annotations, strings.HasPrefix kv.1 annotationPrefix = true →
      ∃ name rest, keyParts kv.1 = name :: "mount-point" :: rest ∨
        keyParts kv.1 = name :: "policy" :: rest) :
    parseChownRequests ord annotations = .ok [] := by
  apply parseChownRequests_nil_of_no_owner
  · intro kv hkv hp
    obtain ⟨name, rest, hk | hk⟩ := h kv hkv hp <;> simp [hk]
  · intro kv hkv hp name arg rest hk
    obtain ⟨name', rest', hk' | hk'⟩ := h kv hkv hp
    · rw [hk'] at hk
      simp only [List.cons.injEq] at hk
      rw [← hk.2.1]; decide
    · rw [hk'] at hk
      simp only [List.cons.injEq] at hk
      rw [← hk.2.1]; decide

/-- C7 at a mount point and a policy for `data` without an owner. -/
theorem parseChownRequests_without_owner_is_empty_witness :
    parseChownRequests RangeOrder.reversed partialAnnotations = .ok [] :=
  parseChownRequests_without_owner_is_empty RangeOrder.reversed partialAnnotations
    (by
      intro kv hkv hp
      simp only [partialAnnotations, List.mem_cons, List.mem_singleton, List.not_mem_nil,
        or_false] at hkv
      rcases hkv with rfl | rfl | rfl
      · exact ⟨"data", [], Or.inl (by decide)⟩
      · exact ⟨"data", [], Or.inr (by decide)⟩
      · exact absurd hp (by decide))

/-- C8: `parseOwner` returns the parsed pair, the gid defaulting to `0`. A string
without `':'` that is the integer literal of `n` gives `(n, 0)` and no error; a string
`a:b` whose two parts hold no `':'` and are the integer literals of `x` and `y` gives
`(x, y)` and no error. In particular `"1000"` gives `(1000, 0)` and `"1000:1000"` gives
`(1000, 1000)`. -/
theorem parseOwner_returns_parsed_pair :
    (∀ s : String, ':' ∉ s.data → isIntLiteral s = true →
      parseOwner s = (literalValue s, 0, none)) ∧
    (∀ a b : String, ':' ∉ a.data → ':' ∉ b.data → isIntLiteral a = true →
      isIntLiteral b = true →
      parseOwner (a ++ ":" ++ b) = (literalValue a, literalValue b, none)) ∧
    parseOwner "1000" = (1000, 0, none) ∧
    parseOwner "1000:1000" = (1000, 1000, none) := by
  refine ⟨?_, ?_, by decide, by decide⟩
  · intro s hs hlit
    have hsplit := Split_of_not_mem s ':' hs
    rcases parseOwner_cases s with ⟨p0, hp, _, hr⟩ | ⟨p0, p1, hp, _, _, _⟩ | ⟨hbad, _⟩
    · rw [hsplit] at hp
      simp only [List.cons.injEq, and_true] at hp
      subst hp; exact hr
    · rw [hsplit] at hp; simp at hp
    · rw [hsplit] at hbad
      rcases hbad with hbad | ⟨seg, hseg, hno⟩
      · simp at hbad
      · simp only [List.mem_singleton] at hseg
        subst hseg; rw [hlit] at hno; cases hno
  · intro a b ha hb hla hlb
    have hsplit : strings.Split (a ++ ":" ++ b) ':' = [a, b] := by
      have := Split_append a b ':'
      rw [Split_of_not_mem a ':' ha, Split_of_not_mem b ':' hb] at this
      exact this
    rcases parseOwner_cases (a ++ ":" ++ b) with
      ⟨p0, hp, _, _⟩ | ⟨p0, p1, hp, _, _, hr⟩ | ⟨hbad, _⟩
    · rw [hsplit] at hp; simp at hp
    · rw [hsplit] at hp
      simp only [List.cons.injEq, and_true] at hp
      obtain ⟨h0, h1⟩ := hp
      subst h0; subst h1; exact hr
    · rw [hsplit] at hbad
      rcases hbad with hbad | ⟨seg, hseg, hno⟩
      · simp at hbad
      · simp only [List.mem_cons, List.mem_singleton, List.not_mem_nil, or_false] at hseg
        rcases hseg with hseg | hseg
        · subst hseg; rw [hla] at hno; cases hno
        · subst hseg; rw [hlb] at hno; cases hno

/-- C8 at `"1000"` and at `"1000:50"`. -/
theorem parseOwner_returns_parsed_pair_witness :
    parseOwner "1000" = (literalValue "1000", 0, none) ∧
      parseOwner ("1000" ++ ":" ++ "50") = (literalValue "1000", literalValue "50", none) :=
  ⟨parseOwner_returns_parsed_pair.1 "1000" (by decide) (by decide),
   parseOwner_returns_parsed_pair.2.1 "1000" "50" (by decide) (by decide) (by decide)
     (by decide)⟩

/-- C9: `parseOwner` fails exactly on malformed owner strings. It returns an error if
and only if the string splits on `':'` into three or more segments or one of its
segments is not a base-10 integer literal of the `int` range; on error the returned pair
is `(0, 0)`. In particular `"1000:1000:1000"`, `"abc"`, `""`, `"1000:"` and `":5"` are
rejected. -/
theorem parseOwner_error_iff_malformed :
    (∀ s : String,
      ((parseOwner s).2.2 ≠ none ↔
        (3 ≤ (strings.Split s ':').length ∨
          ∃ seg ∈ strings.Split s ':', isIntLiteral seg = false)) ∧
      ((parseOwner s).2.2 ≠ none → (parseOwner s).1 = 0 ∧ (parseOwner s).2.1 = 0)) ∧
    (∀ s ∈ ["1000:1000:1000", "abc", "", "1000:", ":5"], (parseOwner s).2.2 ≠ none) := by
  refine ⟨?_, by decide⟩
  intro s
  rcases parseOwner_cases s with ⟨p0, hp, h0, hr⟩ | ⟨p0, p1, hp, h0, h1, hr⟩ | ⟨hbad, e, hr⟩
  · rw [hr, hp]
    refine ⟨⟨fun h => absurd rfl h, ?_⟩, fun h => absurd rfl h⟩
    rintro (h | ⟨seg, hseg, hno⟩)
    · simp at h
    · simp only [List.mem_singleton] at hseg
      subst hseg; rw [h0] at hno; cases hno
  · rw [hr, hp]
    refine ⟨⟨fun h => absurd rfl h, ?_⟩, fun h => absurd rfl h⟩
    rintro (h | ⟨seg, hseg, hno⟩)
    · simp at h
    · simp only [List.mem_cons, List.mem_singleton, List.not_mem_nil, or_false] at hseg
      rcases hseg with hseg | hseg
      · subst hseg; rw [h0] at hno; cases hno
      · subst hseg; rw [h1] at hno; cases hno
  · rw [hr]
    exact ⟨⟨fun _ => hbad, fun _ => by simp⟩, fun _ => ⟨rfl, rfl⟩⟩

/-- C10: a negative owner is accepted by the parser and rejected downstream.
`parseOwner "-1:0"` is `(-1, 0)` with no error; and when every owner fragment of a name
carries a string whose parsed uid or gid is negative, no request of that name is in the
result, whatever mount-point and policy fragments the name has. -/
theorem negative_owner_rejected_downstream :
    parseOwner "-1:0" = (-1, 0, none) ∧
    ∀ (ord : RangeOrder) (annotations : List (String × String)) (name : String)
      (result : GoMap ChownRequest),
      (∀ kv ∈ annotations, strings.HasPrefix kv.1 annotationPrefix = true →
        ∀ rest, keyParts kv.1 = name :: "owner" :: rest →
          (parseOwner kv.2).1 < 0 ∨ (parseOwner kv.2).2.1 < 0) →
      parseChownRequests ord annotations = .ok result →
      ∀ k r, (k, r) ∈ result → r.Name ≠ name := by
  refine ⟨by decide, ?_⟩
  intro ord annotations name result hneg h k r hr hname
  unfold parseChownRequests at h
  cases ha : aggregate [] annotations with
  | error e => simp [ha] at h
  | ok requests =>
    simp only [ha, Except.ok.injEq] at h
    subst h
    obtain ⟨e', he', h2, -, hpass⟩ := rekey_mem _ _ hr
    have he'' : e' ∈ requests := (ord.perm requests).subset he'
    simp only at h2
    have hinv : e'.2.Name = e'.1 ∧ (e'.1 = name → e'.2.User = -1) := by
      refine aggregate_forall (fun k r => r.Name = k ∧ (k = name → r.User = -1))
        annotations ?_ [] requests (by simp) ha e' he''
      intro kv hkv hp first arg rest hk r0 r1 hr0 hd
      have hr0' : r0.Name = first ∧ (first = name → r0.User = -1) := by
        rcases hr0 with hr0 | hr0
        · subst hr0; exact ⟨rfl, fun _ => rfl⟩
        · exact hr0
      refine ⟨by rw [dispatch_name r0 r1 arg kv.2 hd]; exact hr0'.1, ?_⟩
      intro hfirst
      subst hfirst
      rcases dispatch_some r0 r1 arg kv.2 hd with
        ⟨_, rfl⟩ | ⟨harg, uid, gid, hpo, hu, hg, _⟩ | ⟨_, rfl⟩
      · exact hr0'.2 rfl
      · subst harg
        have := hneg kv hkv hp rest hk
        rw [hpo] at this
        simp only at this
        omega
      · exact hr0'.2 rfl
    rw [← h2] at hinv
    have hu : r.User = -1 := hinv.2 (by rw [← hinv.1]; exact hname)
    exact hpass.2.1 (Or.inl hu)

/-- C10 at a request `data` whose owner is `-1:0`. -/
theorem negative_owner_rejected_downstream_witness :
    parseChownRequests RangeOrder.insertion negativeOwnerAnnotations = .ok [] ∧
      ∀ k r, (k, r) ∈ ([] : GoMap ChownRequest) → r.Name ≠ "data" :=
  ⟨by decide,
   negative_owner_rejected_downstream.2 RangeOrder.insertion negativeOwnerAnnotations "data" []
    (by
      intro kv hkv hp rest hk
      simp only [negativeOwnerAnnotations, List.mem_cons, List.mem_singleton,
        List.not_mem_nil, or_false] at hkv
      rcases hkv with rfl | rfl | rfl
      · have h0 : keyParts "com.launchplatform.oci-hooks.mount-chown.data.mount-point" =
            ["data", "mount-point"] := by decide
        have h1 := h0.symm.trans hk
        simp at h1
      · exact Or.inl (by decide)
      · have h0 : keyParts "com.launchplatform.oci-hooks.mount-chown.data.policy" =
            ["data", "policy"] := by decide
        have h1 := h0.symm.trans hk
        simp at h1)
    (by decide)⟩

/-- C11: policy validation. Take one name `n` without `'.'`, a non-empty mount point
`p` and an owner string that `parseOwner` maps to `(u, g)` with `u >= 0` and `g >= 0`.
Without a policy key the result is the single entry for `p`, with `Policy = ""`. With
a policy key of value `q` the result is the single entry for `p`, with `Policy = q`,
when `q` is `""`, `recursive` or `root-only`, and it is empty for every other `q`, as
for `everything`. So an absent policy and `policy = ""` give the same result. -/
theorem parseChownRequests_policy_validation (ord : RangeOrder) (n p o : String)
    (u g : Int) (hn : '.' ∉ n.data) (hp : p ≠ "") (ho : parseOwner o = (u, g, none))
    (hu : 0 ≤ u) (hg : 0 ≤ g) :
    (∀ l : List (String × String),
      l.Perm [(annotationPrefix ++ n ++ ".mount-point", p),
        (annotationPrefix ++ n ++ ".owner", o)] →
      parseChownRequests ord l =
        .ok [(p, { Name := n, MountPoint := p, User := u, Group := g, Policy := "" })]) ∧
    (∀ (q : String) (l : List (String × String)), l.Perm (tripleOf n p o q) →
      parseChownRequests ord l =
        .ok (if q = "" ∨ q = "recursive" ∨ q = "root-only" then
          [(p, { Name := n, MountPoint := p, User := u, Group := g, Policy := q })]
        else [])) ∧
    (∀ l : List (String × String), l.Perm (tripleOf n p o "everything") →
      parseChownRequests ord l = .ok []) := by
  have hacc := acceptedOwner_of_parse o u g ho hu hg
  have hown : ¬ (u = -1 ∨ g = -1) := by omega
  have htriple : ∀ (q : String) (l : List (String × String)), l.Perm (tripleOf n p o q) →
      parseChownRequests ord l =
        .ok (if q = "" ∨ q = "recursive" ∨ q = "root-only" then
          [(p, { Name := n, MountPoint := p, User := u, Group := g, Policy := q })]
        else []) := by
    intro q l hl
    have hagg := aggregate_tripleOf n p o q hn l hl
    rw [hacc] at hagg
    unfold parseChownRequests
    simp only [hagg, order_singleton, rekey_singleton, Option.getD_some, Except.ok.injEq]
    by_cases hq : q = "" ∨ q = "recursive" ∨ q = "root-only"
    · rw [if_pos hq, if_pos ⟨hp, hown, hq⟩]
    · rw [if_neg hq, if_neg (fun hpass => hq hpass.2.2)]
  refine ⟨?_, htriple, ?_⟩
  · intro l hl
    have hagg := aggregate_pair n p o hn l hl
    rw [hacc] at hagg
    unfold parseChownRequests
    simp only [hagg, order_singleton, rekey_singleton, Option.getD_some, Except.ok.injEq]
    rw [if_pos ⟨hp, hown, Or.inl rfl⟩]
  · intro l hl
    rw [htriple "everything" l hl, if_neg (by decide)]

/-- C11 at name `data`, mount point `/data` and owner `1000:1000`: without a policy
key, and with the policy `everything`. -/
theorem parseChownRequests_policy_validation_witness :
    parseChownRequests RangeOrder.insertion
        [(annotationPrefix ++ "data" ++ ".owner", "1000:1000"),
         (annotationPrefix ++ "data" ++ ".mount-point", "/data")] =
      .ok [("/data", { Name := "data", MountPoint := "/data", User := 1000,
                       Group := 1000, Policy := "" })] ∧
    parseChownRequests RangeOrder.insertion
        (tripleOf "data" "/data" "1000:1000" "everything") = .ok [] :=
  ⟨(parseChownRequests_policy_validation RangeOrder.insertion "data" "/data" "1000:1000"
      1000 1000 (by decide) (by decide) (by decide) (by decide) (by decide)).1 _
      (List.Perm.swap _ _ _),
   (parseChownRequests_policy_validation RangeOrder.insertion "data" "/data" "1000:1000"
      1000 1000 (by decide) (by decide) (by decide) (by decide) (by decide)).2.2 _
      (List.Perm.refl _)⟩

/-- C12: mount-point collision. Let the namespaced keys of the input be those of two
distinct names `n1` and `n2` without `'.'`, each with exactly a mount point `p` (the same
non-empty one), an owner string that `parseOwner` maps to a non-negative pair, and
possibly a policy that is empty, `recursive` or `root-only`. Then for every iteration
order of both loops `parseChownRequests` returns a result with exactly one entry, keyed
by `p`, whose value is the assembled request of `n1` or the assembled request of `n2`. -/
theorem parseChownRequests_mountPoint_collision (ord : RangeOrder)
    (annotations : List (String × String)) (n1 n2 p o1 o2 q1 q2 : String)
    (u1 g1 u2 g2 : Int) (hne : n1 ≠ n2) (hn1 : '.' ∉ n1.data) (hn2 : '.' ∉ n2.data)
    (hp : p ≠ "")
    (ho1 : parseOwner o1 = (u1, g1, none)) (hu1 : 0 ≤ u1) (hg1 : 0 ≤ g1)
    (ho2 : parseOwner o2 = (u2, g2, none)) (hu2 : 0 ≤ u2) (hg2 : 0 ≤ g2)
    (hq1 : q1 = "" ∨ q1 = "recursive" ∨ q1 = "root-only")
    (hq2 : q2 = "" ∨ q2 = "recursive" ∨ q2 = "root-only")
    (h1 : holdsRequest annotations n1 p o1 q1) (h2 : holdsRequest annotations n2 p o2 q2)
    (honly : ∀ kv ∈ annotations, namespaced kv = true →
      belongsTo n1 kv = true ∨ belongsTo n2 kv = true) :
    ∃ result, parseChownRequests ord annotations = .ok result ∧
      (result = [(p, { Name := n1, MountPoint := p, User := u1, Group := g1,
                       Policy := q1 })] ∨
        result = [(p, { Name := n2, MountPoint := p, User := u2, Group := g2,
                        Policy := q2 })]) := by
  have htwo : ∀ kv ∈ annotations, strings.HasPrefix kv.1 annotationPrefix = true →
      2 ≤ (keyParts kv.1).length := by
    intro kv hkv hpre
    rcases honly kv hkv hpre with hb | hb
    · rw [holdsRequest_keyParts annotations n1 p o1 q1 hn1 h1 kv hkv hb]
    · rw [holdsRequest_keyParts annotations n2 p o2 q2 hn2 h2 kv hkv hb]
  obtain ⟨m, hm⟩ := aggregate_total annotations htwo []
  have hget1 := aggregate_get_of_holdsRequest annotations m n1 p o1 q1 u1 g1 hn1 ho1 hu1 hg1
    h1 hm
  have hget2 := aggregate_get_of_holdsRequest annotations m n2 p o2 q2 u2 g2 hn2 ho2 hu2 hg2
    h2 hm
  have hnd : (m.map Prod.fst).Nodup := aggregate_keys_nodup annotations [] m (by simp) hm
  have hkeys : ∀ k, k ≠ n1 → k ≠ n2 → mapGet m k = none := by
    intro k hk1 hk2
    cases hg : mapGet m k with
    | none => rfl
    | some r =>
      exfalso
      obtain ⟨⟨kv, hkv, hpre, hhead⟩, _⟩ :=
        aggregate_sources annotations m hm (k, r) (mem_of_mapGet m k r hg)
      rcases honly kv hkv hpre with hb | hb
      · simp only [belongsTo, hpre, Bool.true_and, decide_eq_true_eq] at hb
        rw [hhead] at hb
        exact hk1 (Option.some.inj hb)
      · simp only [belongsTo, hpre, Bool.true_and, decide_eq_true_eq] at hb
        rw [hhead] at hb
        exact hk2 (Option.some.inj hb)
  have hperm : m.Perm
      [(n1, { Name := n1, MountPoint := p, User := u1, Group := g1, Policy := q1 }),
       (n2, { Name := n2, MountPoint := p, User := u2, Group := g2, Policy := q2 })] := by
    apply perm_of_mapGet_eq m _ hnd
    · simp [hne]
    · intro k
      rw [mapGet_pair n1 n2 k]
      by_cases hk1 : n1 = k
      · rw [if_pos hk1, ← hk1]; exact hget1
      · by_cases hk2 : n2 = k
        · rw [if_neg hk1, if_pos hk2, ← hk2]; exact hget2
        · rw [if_neg hk1, if_neg hk2]
          exact hkeys k (fun h => hk1 h.symm) (fun h => hk2 h.symm)
  have hpass1 : passesChecks
      { Name := n1, MountPoint := p, User := u1, Group := g1, Policy := q1 } :=
    ⟨hp, by show ¬ (u1 = -1 ∨ g1 = -1); omega, hq1⟩
  have hpass2 : passesChecks
      { Name := n2, MountPoint := p, User := u2, Group := g2, Policy := q2 } :=
    ⟨hp, by show ¬ (u2 = -1 ∨ g2 = -1); omega, hq2⟩
  refine ⟨rekey (ord.order m), by unfold parseChownRequests; rw [hm], ?_⟩
  rcases perm_two_cases ((ord.perm m).trans hperm) with h | h
  · right
    rw [h]
    simp [rekey, validateStep_eq, hpass1, hpass2, mapSet]
  · left
    rw [h]
    simp [rekey, validateStep_eq, hpass1, hpass2, mapSet]

/-- C12 at the requests `data` and `logs` of `collidingAnnotations`, both for
`/shared`. -/
theorem parseChownRequests_mountPoint_collision_witness :
    ∃ result, parseChownRequests RangeOrder.reversed collidingAnnotations = .ok result ∧
      (result = [("/shared", sharedDataRequest)] ∨
        result = [("/shared", sharedLogsRequest)]) :=
  parseChownRequests_mountPoint_collision RangeOrder.reversed collidingAnnotations
    "data" "logs" "/shared" "1000:1000" "0" "recursive" "" 1000 1000 0 0
    (by decide) (by decide) (by decide) (by decide) (by decide) (by decide) (by decide)
    (by decide) (by decide) (by decide) (Or.inr (Or.inl rfl)) (Or.inl rfl)
    (Or.inr (by
      have h : collidingAnnotations.filter (belongsTo "data") =
          [(annotationPrefix ++ "data" ++ ".policy", "recursive"),
           (annotationPrefix ++ "data" ++ ".mount-point", "/shared"),
           (annotationPrefix ++ "data" ++ ".owner", "1000:1000")] := by decide
      rw [h]
      exact @List.perm_append_comm _
        [(annotationPrefix ++ "data" ++ ".policy", "recursive")] _))
    (Or.inl ⟨by
      have h : collidingAnnotations.filter (belongsTo "logs") =
          [(annotationPrefix ++ "logs" ++ ".owner", "0"),
           (annotationPrefix ++ "logs" ++ ".mount-point", "/shared")] := by decide
      rw [h]
      exact List.Perm.swap _ _ _, rfl⟩)
    (by decide)

/-- C13: the result is keyed by mount point. For every entry `(k, r)` of a result
mapping that `parseChownRequests` returns, `r.MountPoint = k`. -/
theorem parseChownRequests_keyed_by_mountPoint (ord : RangeOrder)
    (annotations : List (String × String)) (result : GoMap ChownRequest)
    (h : parseChownRequests ord annotations = .ok result) :
    ∀ k r, (k, r) ∈ result → r.MountPoint = k := by
  intro k r hr
  unfold parseChownRequests at h
  cases ha : aggregate [] annotations with
  | error e => simp [ha] at h
  | ok requests =>
    simp only [ha, Except.ok.injEq] at h
    subst h
    obtain ⟨_, _, _, hk, _⟩ := rekey_mem _ _ hr
    exact hk.symm

/-- C13 at the sample annotation set. -/
theorem parseChownRequests_keyed_by_mountPoint_witness :
    parseChownRequests RangeOrder.insertion sampleAnnotations =
        .ok [("/data", sampleRequest)] ∧
      ∀ k r, (k, r) ∈ [("/data", sampleRequest)] → r.MountPoint = k :=
  ⟨by decide, parseChownRequests_keyed_by_mountPoint RangeOrder.insertion sampleAnnotations _
    (by decide)⟩

/-- C14: `parseChownRequests` panics with an index out of range on `parts[1]` if and
only if the input holds a key that starts with the namespace and whose remainder after
the namespace has no `'.'`. When the remainder of every namespaced key has a `'.'` the
call returns a result, and no other fault exists. -/
theorem parseChownRequests_panics_iff_one_segment (ord : RangeOrder)
    (annotations : List (String × String)) :
    (parseChownRequests ord annotations = .error (Fault.indexOutOfRange 1 1) ↔
      ∃ kv ∈ annotations, strings.HasPrefix kv.1 annotationPrefix = true ∧
        '.' ∉ (sliceFrom kv.1 annotationPrefix.length).data) ∧
    ((∀ kv ∈ annotations, strings.HasPrefix kv.1 annotationPrefix = true →
        '.' ∈ (sliceFrom kv.1 annotationPrefix.length).data) →
      ∃ result, parseChownRequests ord annotations = .ok result) ∧
    (∀ e, parseChownRequests ord annotations = .error e →
      e = Fault.indexOutOfRange 1 1) := by
  refine ⟨⟨?_, ?_⟩, ?_, ?_⟩
  · intro h
    unfold parseChownRequests at h
    cases ha : aggregate [] annotations with
    | ok requests => simp [ha] at h
    | error e =>
      obtain ⟨_, kv, hkv, hp, hlen⟩ := aggregate_error annotations [] e ha
      exact ⟨kv, hkv, hp, (keyParts_short_iff kv.1).1 hlen⟩
  · rintro ⟨kv, hkv, hp, hdot⟩
    unfold parseChownRequests
    rw [aggregate_error_of_short annotations
      ⟨kv, hkv, hp, (keyParts_short_iff kv.1).2 hdot⟩ []]
  · intro h
    have htwo : ∀ kv ∈ annotations, strings.HasPrefix kv.1 annotationPrefix = true →
        2 ≤ (keyParts kv.1).length := by
      intro kv hkv hp
      by_contra hlt
      exact (keyParts_short_iff kv.1).1 (by omega) (h kv hkv hp)
    obtain ⟨m, hm⟩ := aggregate_total annotations htwo []
    exact ⟨rekey (ord.order m), by unfold parseChownRequests; rw [hm]⟩
  · intro e h
    unfold parseChownRequests at h
    cases ha : aggregate [] annotations with
    | ok requests => simp [ha] at h
    | error e' =>
      simp only [ha, Except.error.injEq] at h
      subst h
      exact (aggregate_error annotations [] e' ha).1

/-- C14 at the sample annotation set, where every namespaced key has a dot after the
namespace. -/
theorem parseChownRequests_panics_iff_one_segment_witness :
    ∃ result, parseChownRequests RangeOrder.insertion sampleAnnotations = .ok result :=
  (parseChownRequests_panics_iff_one_segment RangeOrder.insertion sampleAnnotations).2.1
    (by decide)

/-- C15: each accepted fragment overwrites only the field it targets. In the first
loop, for a namespaced key of name `n`: a mount-point fragment stores `n`'s request with
only `MountPoint` changed, a policy fragment with only `Policy` changed, an accepted
owner fragment with only `User` and `Group` changed; the request of every other name is
as before; and the request worked on is the stored one or, the first time, `{Name: n,
MountPoint: "", User: -1, Group: -1, Policy: ""}`. -/
theorem aggregateStep_overwrites_one_field (m : GoMap ChownRequest)
    (key value n arg : String) (rest : List String)
    (hp : strings.HasPrefix key annotationPrefix = true)
    (hk : keyParts key = n :: arg :: rest) :
    ((mapGet m n = none → fetchRequest m n =
        { Name := n, MountPoint := "", User := -1, Group := -1, Policy := "" }) ∧
      (∀ r, mapGet m n = some r → fetchRequest m n = r)) ∧
    (arg = "mount-point" →
      ∃ m', aggregateStep m key value = .ok m' ∧
        mapGet m' n = some
          { Name := (fetchRequest m n).Name, MountPoint := value,
            User := (fetchRequest m n).User, Group := (fetchRequest m n).Group,
            Policy := (fetchRequest m n).Policy } ∧
        ∀ k, k ≠ n → mapGet m' k = mapGet m k) ∧
    (arg = "policy" →
      ∃ m', aggregateStep m key value = .ok m' ∧
        mapGet m' n = some
          { Name := (fetchRequest m n).Name, MountPoint := (fetchRequest m n).MountPoint,
            User := (fetchRequest m n).User, Group := (fetchRequest m n).Group,
            Policy := value } ∧
        ∀ k, k ≠ n → mapGet m' k = mapGet m k) ∧
    (arg = "owner" → ∀ u g, parseOwner value = (u, g, none) → 0 ≤ u → 0 ≤ g →
      ∃ m', aggregateStep m key value = .ok m' ∧
        mapGet m' n = some
          { Name := (fetchRequest m n).Name, MountPoint := (fetchRequest m n).MountPoint,
            User := u, Group := g, Policy := (fetchRequest m n).Policy } ∧
        ∀ k, k ≠ n → mapGet m' k = mapGet m k) := by
  have hstep := aggregateStep_of_parts m key value n arg rest hp hk
  have hframe : ∀ r k, k ≠ n → mapGet (mapSet m n r) k = mapGet m k := by
    intro r k hkn
    rw [mapGet_mapSet, if_neg (fun h => hkn h.symm)]
  refine ⟨⟨?_, ?_⟩, ?_, ?_, ?_⟩
  · intro hnone
    unfold fetchRequest; rw [hnone]
  · intro r hsome
    unfold fetchRequest; rw [hsome]
  · intro harg
    have harg' : arg = annotationMountPointArg := harg
    rw [harg', dispatch_mountPoint] at hstep
    exact ⟨_, hstep, by rw [mapGet_mapSet, if_pos rfl], hframe _⟩
  · intro harg
    have harg' : arg = annotationPolicyArg := harg
    rw [harg', dispatch_policy] at hstep
    exact ⟨_, hstep, by rw [mapGet_mapSet, if_pos rfl], hframe _⟩
  · intro harg u g ho hu hg
    have harg' : arg = annotationOwnerArg := harg
    have hacc : acceptedOwner value = some (u, g) := by
      unfold acceptedOwner
      rw [ho]
      have h1 : ¬ (u < 0 ∨ g < 0) := by omega
      simp [h1]
    rw [harg', dispatch_owner_eq, hacc] at hstep
    simp only [Option.map_some'] at hstep
    exact ⟨_, hstep, by rw [mapGet_mapSet, if_pos rfl], hframe _⟩

/-- C15 at a policy fragment for `data` met after its mount point. -/
theorem aggregateStep_overwrites_one_field_witness :
    ∃ m', aggregateStep [("data", mountedRequest)]
          "com.launchplatform.oci-hooks.mount-chown.data.policy" "root-only" = .ok m' ∧
      mapGet m' "data" = some
        { Name := (fetchRequest [("data", mountedRequest)] "data").Name,
          MountPoint := (fetchRequest [("data", mountedRequest)] "data").MountPoint,
          User := (fetchRequest [("data", mountedRequest)] "data").User,
          Group := (fetchRequest [("data", mountedRequest)] "data").Group,
          Policy := "root-only" } ∧
      ∀ k, k ≠ "data" → mapGet m' k = mapGet [("data", mountedRequest)] k :=
  (aggregateStep_overwrites_one_field [("data", mountedRequest)]
    "com.launchplatform.oci-hooks.mount-chown.data.policy" "root-only" "data" "policy" []
    (by decide) (by decide)).2.2.1 rfl

/-- C16: a rejected fragment changes nothing. In the first loop, an owner fragment whose
value `parseOwner` rejects, an owner fragment whose parsed uid or gid is negative, and a
fragment with an unrecognized argument kind each leave the intermediate mapping exactly
as it was; so the outcome of the first loop, and of `parseChownRequests`, is that of the
same sequence without this annotation: an owner set before is kept and a valid owner
fragment met later still applies. -/
theorem aggregateStep_rejected_changes_nothing (key value n arg : String)
    (rest : List String)
    (hp : strings.HasPrefix key annotationPrefix = true)
    (hk : keyParts key = n :: arg :: rest)
    (hrej : (arg = "owner" ∧ ((parseOwner value).2.2 ≠ none ∨
          (parseOwner value).1 < 0 ∨ (parseOwner value).2.1 < 0)) ∨
        (arg ≠ "mount-point" ∧ arg ≠ "owner" ∧ arg ≠ "policy")) :
    (∀ m, aggregateStep m key value = .ok m) ∧
    (∀ m before after,
      aggregate m (before ++ (key, value) :: after) = aggregate m (before ++ after)) ∧
    (∀ ord before after,
      parseChownRequests ord (before ++ (key, value) :: after) =
        parseChownRequests ord (before ++ after)) := by
  have hstep : ∀ m, aggregateStep m key value = .ok m := by
    intro m
    rw [aggregateStep_of_parts m key value n arg rest hp hk]
    have hnone : dispatch (fetchRequest m n) arg value = none := by
      cases hd : dispatch (fetchRequest m n) arg value with
      | none => rfl
      | some r' =>
        exfalso
        rcases dispatch_some _ r' arg value hd with
          ⟨ha, _⟩ | ⟨ha, u, g, hpo, hu, hg, _⟩ | ⟨ha, _⟩
        · rcases hrej with ⟨ho, _⟩ | ⟨hm, _, _⟩
          · rw [ho] at ha; exact absurd ha (by decide)
          · exact hm ha
        · rcases hrej with ⟨_, hbad⟩ | ⟨_, ho, _⟩
          · rw [hpo] at hbad
            simp only [ne_eq, not_true_eq_false, false_or] at hbad
            omega
          · exact ho ha
        · rcases hrej with ⟨ho, _⟩ | ⟨_, _, hpol⟩
          · rw [ho] at ha; exact absurd ha (by decide)
          · exact hpol ha
    rw [hnone]
  have hagg : ∀ m before after,
      aggregate m (before ++ (key, value) :: after) = aggregate m (before ++ after) := by
    intro m before after
    rw [aggregate_append, aggregate_append]
    cases aggregate m before with
    | error e => rfl
    | ok m1 => simp only [aggregate, hstep m1]
  refine ⟨hstep, hagg, ?_⟩
  intro ord before after
  unfold parseChownRequests
  rw [hagg]

/-- C16 at an owner fragment `abc` for `data`. -/
theorem aggregateStep_rejected_changes_nothing_witness :
    (∀ m, aggregateStep m "com.launchplatform.oci-hooks.mount-chown.data.owner" "abc" =
        .ok m) ∧
    (∀ m before after,
      aggregate m (before ++
          ("com.launchplatform.oci-hooks.mount-chown.data.owner", "abc") :: after) =
        aggregate m (before ++ after)) ∧
    (∀ ord before after,
      parseChownRequests ord (before ++
          ("com.launchplatform.oci-hooks.mount-chown.data.owner", "abc") :: after) =
        parseChownRequests ord (before ++ after)) :=
  aggregateStep_rejected_changes_nothing
    "com.launchplatform.oci-hooks.mount-chown.data.owner" "abc" "data" "owner" []
    (by decide) (by decide) (Or.inl ⟨rfl, Or.inl (by decide)⟩)

/-- C17: the owner test of the second loop agrees with the specified one on every
reachable request. After the first loop every request has `User = -1` and `Group = -1`,
or `User >= 0` and `Group >= 0`; hence `User == -1 || Group == -1` holds exactly when
`user < 0 || group < 0` does, the loop body of the code and the body worded by the
specification act alike on it, and the two second loops give the same result in every
iteration order. -/
theorem owner_test_agrees_with_spec (annotations : List (String × String))
    (requests : GoMap ChownRequest) (h : aggregate [] annotations = .ok requests) :
    (∀ e ∈ requests,
      ((e.2.User = -1 ∧ e.2.Group = -1) ∨ (0 ≤ e.2.User ∧ 0 ≤ e.2.Group)) ∧
      ((e.2.User = -1 ∨ e.2.Group = -1) ↔ (e.2.User < 0 ∨ e.2.Group < 0)) ∧
      ∀ out, validateStep out e.2 = validateStepSpec out e.2) ∧
    ∀ ord : RangeOrder, rekey (ord.order requests) = rekeySpec (ord.order requests) := by
  have hinv := aggregate_owner annotations requests h
  refine ⟨?_, ?_⟩
  · intro e he
    refine ⟨hinv e he, ?_, fun out => validateStep_eq_spec out e.2 (hinv e he)⟩
    rcases hinv e he with ⟨hu, hg⟩ | ⟨hu, hg⟩
    · constructor
      · intro _; left; omega
      · intro _; exact Or.inl hu
    · constructor
      · intro hneg; omega
      · intro hneg; omega
  · intro ord
    exact foldl_validateStep_eq_spec (ord.order requests) []
      (fun e he => hinv e ((ord.perm requests).subset he))

/-- C17 at the annotations whose owner for `data` is `-1:0`. -/
theorem owner_test_agrees_with_spec_witness :
    (∀ e ∈ [("data", unownedRequest)],
      ((e.2.User = -1 ∧ e.2.Group = -1) ∨ (0 ≤ e.2.User ∧ 0 ≤ e.2.Group)) ∧
      ((e.2.User = -1 ∨ e.2.Group = -1) ↔ (e.2.User < 0 ∨ e.2.Group < 0)) ∧
      ∀ out, validateStep out e.2 = validateStepSpec out e.2) ∧
    ∀ ord : RangeOrder,
      rekey (ord.order [("data", unownedRequest)]) =
        rekeySpec (ord.order [("data", unownedRequest)]) :=
  owner_test_agrees_with_spec negativeOwnerAnnotations _ (by decide)

/-- C18: every result entry comes from the input. For every request `r` of a result
that `parseChownRequests` returns, the input holds a namespaced key whose first two
segments are `(r.Name, "mount-point")` with value `r.MountPoint`, a namespaced key whose
first two segments are `(r.Name, "owner")` whose value `parseOwner` maps to
`(r.User, r.Group)`, and either `r.Policy = ""` or a namespaced key whose first two
segments are `(r.Name, "policy")` with value `r.Policy`. The result has at most as many
entries as there are distinct names among the namespaced keys. -/
theorem parseChownRequests_entries_from_input (ord : RangeOrder)
    (annotations : List (String × String)) (result : GoMap ChownRequest)
    (h : parseChownRequests ord annotations = .ok result) :
    (∀ k r, (k, r) ∈ result →
      (∃ kv ∈ annotations, strings.HasPrefix kv.1 annotationPrefix = true ∧
        ∃ rest, keyParts kv.1 = r.Name :: "mount-point" :: rest ∧ kv.2 = r.MountPoint) ∧
      (∃ kv ∈ annotations, strings.HasPrefix kv.1 annotationPrefix = true ∧
        ∃ rest, keyParts kv.1 = r.Name :: "owner" :: rest ∧
          parseOwner kv.2 = (r.User, r.Group, none)) ∧
      (r.Policy = "" ∨
        ∃ kv ∈ annotations, strings.HasPrefix kv.1 annotationPrefix = true ∧
          ∃ rest, keyParts kv.1 = r.Name :: "policy" :: rest ∧ kv.2 = r.Policy)) ∧
    result.length ≤ (namesOf annotations).length := by
  unfold parseChownRequests at h
  cases ha : aggregate [] annotations with
  | error e => simp [ha] at h
  | ok requests =>
    simp only [ha, Except.ok.injEq] at h
    subst h
    refine ⟨?_, ?_⟩
    · intro k r hr
      obtain ⟨e', he', h2, -, hpass⟩ := rekey_mem _ _ hr
      have he'' : e' ∈ requests := (ord.perm requests).subset he'
      simp only at h2
      have hname := aggregate_name annotations requests ha e' he''
      have hmp := aggregate_mountPoint annotations requests ha e' he''
      obtain ⟨_, hown, hpol⟩ := aggregate_sources annotations requests ha e' he''
      rw [← hname, ← h2] at hmp hown hpol
      refine ⟨?_, ?_, hpol⟩
      · rcases hmp with hempty | hsrc
        · exact absurd hempty hpass.1
        · exact hsrc
      · rcases hown with ⟨hu, _⟩ | hsrc
        · exact absurd (Or.inl hu) hpass.2.1
        · exact hsrc
    · have h1 := rekey_length_le (ord.order requests)
      have h2 : (ord.order requests).length = requests.length := (ord.perm requests).length_eq
      have hnd := aggregate_keys_nodup annotations [] requests (by simp) ha
      have hsub : requests.map Prod.fst ⊆ namesOf annotations := by
        intro k hk
        obtain ⟨e, he, rfl⟩ := List.mem_map.1 hk
        exact (mem_namesOf annotations e.1).2
          (aggregate_sources annotations requests ha e he).1
      have h3 := (List.Nodup.subperm hnd hsub).length_le
      rw [List.length_map] at h3
      omega

/-- C18 at the annotations of `mixedAnnotations`, whose result is the request of
`data`. -/
theorem parseChownRequests_entries_from_input_witness :
    parseChownRequests RangeOrder.insertion mixedAnnotations =
      .ok [("/data", plainRequest)] ∧
    [("/data", plainRequest)].length ≤ (namesOf mixedAnnotations).length :=
  ⟨by decide,
   (parseChownRequests_entries_from_input RangeOrder.insertion mixedAnnotations _
      (by decide)).2⟩

/-- C19: the result does not depend on the iteration orders when the fragments are
unambiguous. Let every namespaced key of the input have at least two segments after the
namespace, no two namespaced keys share their first two segments (name and argument
kind), and no two names carry the same mount-point value. Then for any two orders of
the annotations and any two orders of the second loop `parseChownRequests` returns
results with the same entries: they read alike at every key. -/
theorem parseChownRequests_order_irrelevant (ord1 ord2 : RangeOrder)
    (l1 l2 : List (String × String)) (hperm : l1.Perm l2)
    (htwo : ∀ kv ∈ l1, strings.HasPrefix kv.1 annotationPrefix = true →
      2 ≤ (keyParts kv.1).length)
    (hdistinct : l1.Pairwise (fun a b => namespaced a = true → namespaced b = true →
      (keyParts a.1).take 2 ≠ (keyParts b.1).take 2))
    (hmount : ∀ kv1 ∈ l1, ∀ kv2 ∈ l1, namespaced kv1 = true → namespaced kv2 = true →
      ∀ n1 n2 rest1 rest2, keyParts kv1.1 = n1 :: "mount-point" :: rest1 →
        keyParts kv2.1 = n2 :: "mount-point" :: rest2 → kv1.2 = kv2.2 → n1 = n2) :
    ∃ res1 res2, parseChownRequests ord1 l1 = .ok res1 ∧
      parseChownRequests ord2 l2 = .ok res2 ∧ res1.Perm res2 ∧
      ∀ k, mapGet res1 k = mapGet res2 k := by
  have htwo2 : ∀ kv ∈ l2, strings.HasPrefix kv.1 annotationPrefix = true →
      2 ≤ (keyParts kv.1).length := fun kv hkv => htwo kv (hperm.symm.subset hkv)
  obtain ⟨m1, hm1⟩ := aggregate_total l1 htwo []
  obtain ⟨m2, hm2⟩ := aggregate_total l2 htwo2 []
  have hnd1 : (m1.map Prod.fst).Nodup := aggregate_keys_nodup l1 [] m1 (by simp) hm1
  have hnd2 : (m2.map Prod.fst).Nodup := aggregate_keys_nodup l2 [] m2 (by simp) hm2
  -- the two intermediate maps hold the same requests
  have hget : ∀ n, mapGet m1 n = mapGet m2 n := by
    intro n
    rw [aggregate_get l1 [] m1 n hm1, aggregate_get l2 [] m2 n hm2]
    apply assemble_perm n _ _ (List.Perm.filterMap (fragmentOf n) hperm)
    refine List.Pairwise.filterMap (fragmentOf n) ?_ hdistinct
    intro a a' hR b hb b' hb' hbb
    obtain ⟨hpa, resta, hka⟩ := fragmentOf_some n a b hb
    obtain ⟨hpa', resta', hka'⟩ := fragmentOf_some n a' b' hb'
    apply hR hpa hpa'
    rw [hka, hka', hbb]
    rfl
  have hmperm : m1.Perm m2 := perm_of_mapGet_eq m1 m2 hnd1 hnd2 hget
  -- no two passing requests share a mount point
  have huniq : ∀ e ∈ m1, ∀ e' ∈ m1, passesChecks e.2 → passesChecks e'.2 →
      e.2.MountPoint = e'.2.MountPoint → e.2 = e'.2 := by
    intro e he e' he' hpe hpe' hmp
    rcases aggregate_mountPoint l1 m1 hm1 e he with hempty | ⟨kv, hkv, hpre, rest, hk, hv⟩
    · exact absurd hempty hpe.1
    · rcases aggregate_mountPoint l1 m1 hm1 e' he' with
        hempty' | ⟨kv', hkv', hpre', rest', hk', hv'⟩
      · exact absurd hempty' hpe'.1
      · have hname : e.1 = e'.1 :=
          hmount kv hkv kv' hkv' hpre hpre' e.1 e'.1 rest rest' hk hk'
            (by rw [hv, hv', hmp])
        have hg1 := mapGet_of_mem m1 e.1 e.2 hnd1 he
        have hg2 := mapGet_of_mem m1 e'.1 e'.2 hnd1 he'
        rw [hname, hg2] at hg1
        exact (Option.some.inj hg1).symm
  have hes : (ord1.order m1).Perm (ord2.order m2) :=
    ((ord1.perm m1).trans hmperm).trans (ord2.perm m2).symm
  have huniq' : ∀ e ∈ ord1.order m1, ∀ e' ∈ ord1.order m1, passesChecks e.2 →
      passesChecks e'.2 → e.2.MountPoint = e'.2.MountPoint → e.2 = e'.2 :=
    fun e he e' he' =>
      huniq e ((ord1.perm m1).subset he) e' ((ord1.perm m1).subset he')
  have hread := rekey_perm (ord1.order m1) (ord2.order m2) hes huniq'
  refine ⟨rekey (ord1.order m1), rekey (ord2.order m2), ?_, ?_, ?_, hread⟩
  · unfold parseChownRequests; rw [hm1]
  · unfold parseChownRequests; rw [hm2]
  · exact perm_of_mapGet_eq _ _ (rekey_keys_nodup _) (rekey_keys_nodup _) hread

/-- C19 at `unambiguousAnnotations`, read forwards and backwards. -/
theorem parseChownRequests_order_irrelevant_witness :
    ∃ res1 res2,
      parseChownRequests RangeOrder.insertion unambiguousAnnotations = .ok res1 ∧
      parseChownRequests RangeOrder.reversed unambiguousAnnotations.reverse = .ok res2 ∧
      res1.Perm res2 ∧ ∀ k, mapGet res1 k = mapGet res2 k :=
  parseChownRequests_order_irrelevant RangeOrder.insertion RangeOrder.reversed
    unambiguousAnnotations unambiguousAnnotations.reverse
    (List.reverse_perm unambiguousAnnotations).symm
    (by decide)
    (by decide)
    (by
      intro kv1 h1 kv2 h2 _ _ n1 n2 rest1 rest2 hk1 hk2 hv
      have hd : keyParts (annotationPrefix ++ "data" ++ ".mount-point") =
          ["data", "mount-point"] := by decide
      have hl : keyParts (annotationPrefix ++ "logs" ++ ".mount-point") =
          ["logs", "mount-point"] := by decide
      have hlo : keyParts (annotationPrefix ++ "logs" ++ ".owner") =
          ["logs", "owner"] := by decide
      have hdo : keyParts (annotationPrefix ++ "data" ++ ".owner") =
          ["data", "owner"] := by decide
      have hdp : keyParts (annotationPrefix ++ "data" ++ ".policy") =
          ["data", "policy"] := by decide
      have ht : keyParts "org.opencontainers.image.title" = [""] := by decide
      simp only [unambiguousAnnotations, List.mem_cons, List.mem_singleton,
        List.not_mem_nil, or_false] at h1 h2
      rcases h1 with rfl | rfl | rfl | rfl | rfl | rfl <;>
      rcases h2 with rfl | rfl | rfl | rfl | rfl | rfl <;>
      simp_all)

/-- C20: only the first two segments after the namespace are read. For every name `n`,
argument kind `a`, extra suffix `e` and value `v`, the key `<namespace>n.a.e` acts in the
first loop exactly as the key `<namespace>n.a`, on every intermediate mapping, and the
two single-key mappings give the same result. So the key `<namespace>a.b.mount-point` is
read as name `a` with the unrecognized argument kind `b`: it leaves the intermediate
mapping as it was and, alone, gives an empty result. -/
theorem only_first_two_segments_read (n a e v : String) :
    (∀ m, aggregateStep m (annotationPrefix ++ n ++ "." ++ a ++ "." ++ e) v =
        aggregateStep m (annotationPrefix ++ n ++ "." ++ a) v) ∧
    (∀ ord, parseChownRequests ord [(annotationPrefix ++ n ++ "." ++ a ++ "." ++ e, v)] =
        parseChownRequests ord [(annotationPrefix ++ n ++ "." ++ a, v)]) ∧
    keyParts (annotationPrefix ++ "a.b.mount-point") = ["a", "b", "mount-point"] ∧
    (∀ m, aggregateStep m (annotationPrefix ++ "a.b.mount-point") v = .ok m) ∧
    (∀ ord, parseChownRequests ord [(annotationPrefix ++ "a.b.mount-point", v)] =
        .ok []) := by
  have hshort : annotationPrefix ++ n ++ "." ++ a =
      annotationPrefix ++ (n ++ String.mk ['.'] ++ a) := by
    apply String.ext; simp [String.data_append]
  have hlong : annotationPrefix ++ n ++ "." ++ a ++ "." ++ e =
      annotationPrefix ++ (n ++ String.mk ['.'] ++ a ++ String.mk ['.'] ++ e) := by
    apply String.ext; simp [String.data_append]
  have hstep : ∀ m, aggregateStep m (annotationPrefix ++ n ++ "." ++ a ++ "." ++ e) v =
      aggregateStep m (annotationPrefix ++ n ++ "." ++ a) v := by
    intro m
    obtain ⟨x, y, r1, r2, h1, h2⟩ := append_first_two (strings.Split n '.')
      (strings.Split a '.') (strings.Split e '.') (Split_ne_nil n '.') (Split_ne_nil a '.')
    have hks : keyParts (annotationPrefix ++ n ++ "." ++ a) = x :: y :: r1 := by
      rw [hshort, keyParts_append, Split_append, h1]
    have hkl : keyParts (annotationPrefix ++ n ++ "." ++ a ++ "." ++ e) = x :: y :: r2 := by
      rw [hlong, keyParts_append, Split_append, Split_append, h2]
    rw [aggregateStep_of_parts m _ v x y r2 (by rw [hlong]; exact HasPrefix_append _) hkl,
      aggregateStep_of_parts m _ v x y r1 (by rw [hshort]; exact HasPrefix_append _) hks]
  have hkey : keyParts (annotationPrefix ++ "a.b.mount-point") = ["a", "b", "mount-point"] := by
    decide
  have hdot : ∀ m, aggregateStep m (annotationPrefix ++ "a.b.mount-point") v = .ok m := by
    intro m
    rw [aggregateStep_of_parts m _ v "a" "b" ["mount-point"] (HasPrefix_append _) hkey]
    have : dispatch (fetchRequest m "a") "b" v = none := by
      unfold dispatch
      rw [if_neg (by decide), if_neg (by decide), if_neg (by decide)]
    rw [this]
  refine ⟨hstep, ?_, hkey, hdot, ?_⟩
  · intro ord
    unfold parseChownRequests
    simp only [aggregate, hstep]
  · intro ord
    unfold parseChownRequests
    simp only [aggregate, hdot, order_nil]
    rfl

end OciHooksChown
